import Mathlib

/-!
SkyBoy `sb_types.h`: audio ring buffer, path utilities and file loader.

A shallow embedding of the helpers of `src/sb_types.h`.

* `uint32_t` values are natural numbers below `2^32`; subtraction wraps modulo `2^32`.
* A C string is the list of its characters before the terminating NUL.
* A `char` buffer is a list of characters in which NUL (`Char.ofNat 0`) may occur; reading a
  string from a buffer stops at the first NUL.
-/

namespace SkyBoy

/-! ## Constants -/

/-- The constant `SB_FILE_PATH_SIZE`, defined as `1024`. -/
def SB_FILE_PATH_SIZE : Nat := 1024

/-- The constant `SB_AUDIO_RING_BUFFER_SIZE`, defined as `(2048*4)`. -/
def SB_AUDIO_RING_BUFFER_SIZE : Nat := 2048 * 4

/-- Number of values of a `uint32_t`. -/
def U32_MOD : Nat := 4294967296

/-- Subtraction of two `uint32_t` values (`a - b`, wrapping modulo `2^32`). -/
def u32_sub (a b : Nat) : Nat := (a + U32_MOD - b) % U32_MOD

/-- Addition of two `uint32_t` values (`a + b`, wrapping modulo `2^32`). -/
def u32_add (a b : Nat) : Nat := (a + b) % U32_MOD

/-! ## Audio ring buffer -/

/-- The struct `sb_ring_buffer_t`: `int16_t data[SB_AUDIO_RING_BUFFER_SIZE]`,
`uint32_t read_ptr`, `uint32_t write_ptr`. -/
structure sb_ring_buffer_t where
  data : List Int
  read_ptr : Nat
  write_ptr : Nat
  deriving DecidableEq

/-- Well-formedness of a ring-buffer state: both pointers are `uint32_t` values. -/
def sb_ring_buffer_t.wf (b : sb_ring_buffer_t) : Prop :=
  b.read_ptr < U32_MOD ∧ b.write_ptr < U32_MOD

instance (b : sb_ring_buffer_t) : Decidable b.wf := by
  unfold sb_ring_buffer_t.wf; exact inferInstance

/-- The pointer update at the head of `sb_ring_buffer_size`:
```c
if(buff->read_ptr>SB_AUDIO_RING_BUFFER_SIZE){
  buff->write_ptr-=SB_AUDIO_RING_BUFFER_SIZE;
  buff->read_ptr-=SB_AUDIO_RING_BUFFER_SIZE;
}
``` -/
def sb_ring_buffer_normalize (buff : sb_ring_buffer_t) : sb_ring_buffer_t :=
  if buff.read_ptr > SB_AUDIO_RING_BUFFER_SIZE then
    { buff with
      write_ptr := u32_sub buff.write_ptr SB_AUDIO_RING_BUFFER_SIZE
      read_ptr := u32_sub buff.read_ptr SB_AUDIO_RING_BUFFER_SIZE }
  else buff

/-- The function `sb_ring_buffer_size`: returns the value `v` and the buffer as the call
leaves it.
```c
uint32_t v = (buff->write_ptr-buff->read_ptr);
v= v%SB_AUDIO_RING_BUFFER_SIZE;
return v;
``` -/
def sb_ring_buffer_size (buff : sb_ring_buffer_t) : Nat × sb_ring_buffer_t :=
  let buff1 := sb_ring_buffer_normalize buff
  let v := u32_sub buff1.write_ptr buff1.read_ptr
  let v := v % SB_AUDIO_RING_BUFFER_SIZE
  (v, buff1)

/-- The count computed from fixed-width unsigned counters with no normalization step:
`((write_ptr - read_ptr) mod 2^32) mod 8192`. -/
def occupied_count_spec (read_ptr write_ptr : Nat) : Int :=
  (((write_ptr : Int) - (read_ptr : Int)) % 4294967296) % 8192

/-- One step of the consumer protocol: call `sb_ring_buffer_size`, then advance `read_ptr`
by `k` samples, where `k` is at most the returned count. -/
def ConsumerStep (s t : sb_ring_buffer_t) : Prop :=
  ∃ k : Nat, k ≤ (sb_ring_buffer_size s).1 ∧
    t = { (sb_ring_buffer_size s).2 with
          read_ptr := u32_add (sb_ring_buffer_size s).2.read_ptr k }

/-! ## C strings and `char` buffers -/

/-- The terminating character of a C string. -/
def NUL : Char := Char.ofNat 0

/-- Directory separators recognised by `sb_breakup_path`: `'\\'` and `'/'`. -/
def is_path_sep (c : Char) : Bool := c == Char.ofNat 92 || c == '/'

/-- A list of characters is the content of a C string when it holds no NUL. -/
def IsCStr (s : List Char) : Prop := NUL ∉ s

instance (s : List Char) : Decidable (IsCStr s) := by
  unfold IsCStr; exact inferInstance

/-- The C string that starts at the beginning of a buffer: the characters before the first
NUL. -/
def c_str (buf : List Char) : List Char := buf.takeWhile (fun c => c != NUL)

/-- The function `strlen` on a buffer. -/
def strlen (buf : List Char) : Nat := (c_str buf).length

/-- The call `strncpy(dst, src, n)`: the first `n` characters of `dst` become the string `src`, cut to
`n` characters and padded with NULs when shorter. -/
def strncpy (dst src : List Char) (n : Nat) : List Char :=
  src.take n ++ List.replicate (n - (src.take n).length) NUL ++ dst.drop n

/-- The call `snprintf(dest, size, "%s...%s", args...)`: writes at most `size - 1` characters of the
concatenated arguments followed by a NUL; writes nothing when `size` is `0`. -/
def snprintf (dest : List Char) (size : Nat) (args : List (List Char)) : List Char :=
  if size = 0 then dest
  else
    let out := args.flatten.take (size - 1) ++ [NUL]
    out ++ dest.drop out.length

/-! ## Path utilities -/

/-- A `const char*` result of `sb_breakup_path`: either the string literal `""` or a pointer
into the static buffer `tmp_path` at the given offset. -/
inductive path_ptr where
  | empty_literal : path_ptr
  | tmp_path_at (offset : Nat) : path_ptr
  deriving DecidableEq

/-- The variables of `sb_breakup_path`: the static buffer `tmp_path`, the three output
pointers and the flag `found_ext`. -/
structure breakup_t where
  tmp_path : List Char
  base_path : path_ptr
  file_name : path_ptr
  ext : path_ptr
  found_ext : Bool
  deriving DecidableEq

/-- The string a result pointer of `sb_breakup_path` points to. -/
def breakup_t.str (st : breakup_t) : path_ptr → List Char
  | path_ptr.empty_literal => []
  | path_ptr.tmp_path_at offset => c_str (st.tmp_path.drop offset)

/-- The loop of `sb_breakup_path`, started with the given value of `sz`:
```c
while(sz--){
  if(tmp_path[sz]=='.'&&!found_ext){
    tmp_path[sz] = '\0';
    found_ext = true;
    *ext = tmp_path + sz+1;
    *file_name = tmp_path;
  }
  if(tmp_path[sz]=='\\'||tmp_path[sz]=='/'){
    tmp_path[sz]='\0';
    *file_name = tmp_path+sz+1;
    *base_path = tmp_path;
    break;
  }
}
``` -/
def sb_breakup_path_loop : Nat → breakup_t → breakup_t
  | 0, st => st
  | sz + 1, st =>
    let st1 : breakup_t :=
      if st.tmp_path.getD sz NUL == '.' && !st.found_ext then
        { st with
          tmp_path := st.tmp_path.set sz NUL
          found_ext := true
          ext := path_ptr.tmp_path_at (sz + 1)
          file_name := path_ptr.tmp_path_at 0 }
      else st
    if is_path_sep (st1.tmp_path.getD sz NUL) then
      { st1 with
        tmp_path := st1.tmp_path.set sz NUL
        file_name := path_ptr.tmp_path_at (sz + 1)
        base_path := path_ptr.tmp_path_at 0 }
    else sb_breakup_path_loop sz st1

/-- The function `sb_breakup_path`. The static buffer `tmp_path` is overwritten in full by
`strncpy` and the store to its last element, so its previous content is immaterial.
```c
static char tmp_path[SB_FILE_PATH_SIZE];
strncpy(tmp_path,path,SB_FILE_PATH_SIZE-1);
tmp_path[SB_FILE_PATH_SIZE-1]='\0';
size_t sz = strlen(tmp_path);
*base_path = "";
*file_name = tmp_path;
*ext = "";
bool found_ext = false;
``` -/
def sb_breakup_path (path : List Char) : breakup_t :=
  let tmp_path := List.replicate SB_FILE_PATH_SIZE NUL
  let tmp_path := strncpy tmp_path path (SB_FILE_PATH_SIZE - 1)
  let tmp_path := tmp_path.set (SB_FILE_PATH_SIZE - 1) NUL
  let sz := strlen tmp_path
  sb_breakup_path_loop sz
    { tmp_path := tmp_path
      base_path := path_ptr.empty_literal
      file_name := path_ptr.tmp_path_at 0
      ext := path_ptr.empty_literal
      found_ext := false }

/-- The three strings `(*base_path, *file_name, *ext)` that `sb_breakup_path` hands back. -/
def sb_breakup_path_strings (path : List Char) : List Char × List Char × List Char :=
  let st := sb_breakup_path path
  (st.str st.base_path, st.str st.file_name, st.str st.ext)

/-- The function `se_join_path`; the result is the destination buffer after the call, and
`none` when `dest_path[dest_size-1]` lies outside the buffer. `add_extension` is `none` for a
NULL pointer.
```c
char * seperator = base_path[0]==0? "" : "/";
if(add_extension){
  const char * ext_sep = add_extension[0]=='.' ? "": ".";
  snprintf(dest_path,dest_size,"%s%s%s%s%s",base_path, seperator, file_name,ext_sep,add_extension);
}else snprintf(dest_path,dest_size,"%s%s%s",base_path, seperator, file_name);
dest_path[dest_size-1]=0;
``` -/
def se_join_path (dest_path : List Char) (dest_size : Nat) (base_path file_name : List Char)
    (add_extension : Option (List Char)) : Option (List Char) :=
  if dest_size = 0 ∨ dest_path.length < dest_size then none
  else
    let seperator : List Char := if base_path.head? = none then [] else ['/']
    let dest_path :=
      match add_extension with
      | some add_extension =>
        let ext_sep : List Char := if add_extension.head? = some '.' then [] else ['.']
        snprintf dest_path dest_size [base_path, seperator, file_name, ext_sep, add_extension]
      | none => snprintf dest_path dest_size [base_path, seperator, file_name]
    some (dest_path.set (dest_size - 1) NUL)

/-- The position of the last character of `l` that satisfies `p`, if there is one. -/
def last_index (p : Char → Bool) : List Char → Option Nat
  | [] => none
  | c :: cs =>
    match last_index p cs with
    | some i => some (i + 1)
    | none => if p c then some 0 else none

/-- The decomposition of a path as the specification words it: `s` is the position of the
last `'/'` or backslash, `d` the position of the last `'.'` after `s`; the directory is the
text before `s`, the extension the text after `d`, the base name the text strictly between
`s` and `d`. -/
def breakup_spec (path : List Char) : List Char × List Char × List Char :=
  let s := last_index is_path_sep path
  let after_s := match s with
    | some i => path.drop (i + 1)
    | none => path
  let d := last_index (fun c => c == '.') after_s
  let directory := match s with
    | some i => path.take i
    | none => []
  let base_name := match d with
    | some j => after_s.take j
    | none => after_s
  let extension := match d with
    | some j => after_s.drop (j + 1)
    | none => []
  (directory, base_name, extension)

/-- The directory part of a joined path as the specification words it: the directory
followed by a separator, and nothing when the directory is empty. -/
def join_spec_dir (base_path : List Char) : List Char :=
  if base_path = [] then [] else base_path ++ ['/']

/-- The extension part of a joined path as the specification words it: nothing without an
extension, the extension verbatim when it starts with `'.'`, and `"."` followed by the
extension otherwise. -/
def join_spec_ext : Option (List Char) → List Char
  | none => []
  | some [] => ['.']
  | some (c :: cs) => if c = '.' then c :: cs else '.' :: c :: cs

/-! ## File loader -/

/-- A file as the loader sees it: `bytes` is its content (`ftell` at the end reports
`bytes.length`), and `read_limit` is the number of bytes `fread` delivers before it stops
short (an I/O error or a file that shrank after `ftell`). -/
structure sb_file where
  bytes : List Nat
  read_limit : Nat
  deriving DecidableEq

/-- The file system: `fopen(path, "rb")` yields a file or fails. -/
abbrev sb_file_system := List Char → Option sb_file

/-- The call `fread(buffer, 1, n, f)` from the start of the file: the number of bytes read and the
buffer afterwards. -/
def fread (buffer : List Nat) (n : Nat) (f : sb_file) : Nat × List Nat :=
  let got := f.bytes.take (min n f.read_limit)
  (got.length, got ++ buffer.drop got.length)

/-- The function `sb_load_file_data_into_buffer`: the returned flag and the buffer afterwards.
```c
FILE *f = fopen(path, "rb");
if(f){
  size_t size = 0;
  fseek(f, 0,SEEK_END);
  size = ftell(f);
  fseek(f, 0,SEEK_SET);
  if(size!=buffer_size){
    printf("%s is the wrong size. Expected: %zu got: %zu\n",path,buffer_size,size);
    return false;
  }
  size =fread(buffer, 1, size, f);
  printf("Loaded file %s file_size %zu\n",path,size);
  fclose(f);
  return true;
}else{
  printf("Failed to open file %s\n",path);
}
return false;
``` -/
def sb_load_file_data_into_buffer (fs : sb_file_system) (path : List Char)
    (buffer : List Nat) (buffer_size : Nat) : Bool × List Nat :=
  match fs path with
  | some f =>
    let size := f.bytes.length
    if size ≠ buffer_size then (false, buffer)
    else
      let r := fread buffer size f
      (true, r.2)
  | none => (false, buffer)

/-! ## Run modes, latency and the 16-bit half-register macros -/

/-- The constant `SB_MODE_PAUSE`, defined as `0`. -/
def SB_MODE_PAUSE : Nat := 0

/-- The constant `SB_MODE_RESET`, defined as `1`. -/
def SB_MODE_RESET : Nat := 1

/-- The constant `SB_MODE_RUN`, defined as `2`. -/
def SB_MODE_RUN : Nat := 2

/-- The constant `SB_MODE_STEP`, defined as `3`. -/
def SB_MODE_STEP : Nat := 3

/-- The constant `SB_MODE_REWIND`, defined as `4`. -/
def SB_MODE_REWIND : Nat := 4

/-- The time in milliseconds that `samples` samples last at `rate` samples per second. -/
def latency_ms (samples rate : Nat) : ℚ := (samples : ℚ) / (rate : ℚ) * 1000

/-- The bits of `(int)(VAL)`: a 32-bit two's complement `int`, as a natural number. -/
def int_bits (VAL : Int) : Nat := (VAL % 4294967296).toNat

/-- The macro `SB_U16_LO(A)`, defined as `((A)&0xff)`. -/
def SB_U16_LO (A : Nat) : Nat := A &&& 0xff

/-- The value that the macro `SB_U16_LO_SET(A,VAL)` assigns to `A`:
`(((A)&0xff00)|(((int)(VAL))&0xff))`. -/
def SB_U16_LO_SET (A : Nat) (VAL : Int) : Nat := (A &&& 0xff00) ||| (int_bits VAL &&& 0xff)

/-- The macro `SB_U16_HI(A)`, defined as `((A >> 8) & 0xff)`. -/
def SB_U16_HI (A : Nat) : Nat := (A >>> 8) &&& 0xff

/-- The value that the macro `SB_U16_HI_SET(A,VAL)` assigns to `A`:
`(((A)&0x00ff)|((((int)(VAL))&0xff)<<8))`. -/
def SB_U16_HI_SET (A : Nat) (VAL : Int) : Nat :=
  (A &&& 0x00ff) ||| ((int_bits VAL &&& 0xff) <<< 8)

/-! ## File-extension test -/

/-- The function `tolower` of the C library in the "C" locale: the upper-case ASCII letters
are mapped to their lower-case counterparts, every other character to itself. -/
def tolower (c : Char) : Char := c.toLower

/-- The loop of `sb_path_has_file_ext`, with the number of iterations that remain
(`ext_len - i`) and the loop variable `i`:
```c
for(int i=0;i<ext_len;++i){
  if(tolower(path[path_len-ext_len+i])!=tolower(ext[i]))return false;
}
return true;
``` -/
def sb_path_has_file_ext_loop (path ext : List Char) (path_len ext_len : Nat) :
    Nat → Nat → Bool
  | 0, _ => true
  | n + 1, i =>
    if tolower (path.getD (path_len - ext_len + i) NUL) != tolower (ext.getD i NUL) then false
    else sb_path_has_file_ext_loop path ext path_len ext_len n (i + 1)

/-- The function `sb_path_has_file_ext`; the lengths are taken to fit the type `int`.
```c
int ext_len = strlen(ext);
int path_len = strlen(path);
if(path_len<ext_len)return false;
``` -/
def sb_path_has_file_ext (path ext : List Char) : Bool :=
  let ext_len := ext.length
  let path_len := path.length
  if path_len < ext_len then false
  else sb_path_has_file_ext_loop path ext path_len ext_len (ext_len - 0) 0

/-! ## BIOS loader -/

/-- The largest value of the type `size_t` (64 bits), which is what `EOF` becomes in the
comparison `size==EOF`. -/
def SIZE_MAX : Nat := 18446744073709551615

/-- The call `memcpy(dst, src, n)`: the first `n` bytes of `dst` become those of `src`. -/
def memcpy (dst src : List Nat) (n : Nat) : List Nat := src.take n ++ dst.drop n

/-- What `sb_load_file_data` hands back: the returned pointer (`none` for NULL, else the
content of the allocated block), the value stored in `*file_size`, and whether the block was
already freed when the function returned. -/
structure load_result where
  data : Option (List Nat)
  file_size : Nat
  freed : Bool
  deriving DecidableEq

/-- The function `sb_load_file_data`, called with a non-NULL `file_size`; `malloc_ok n` tells
whether `malloc(n)` yields a block.
```c
FILE *f = fopen(path, "rb");
if(file_size)*file_size = 0;
if(f){
  size_t size = 0;
  fseek(f, 0,SEEK_END);
  size = ftell(f);
  fseek(f, 0,SEEK_SET);
  uint8_t *data = (uint8_t*)malloc(size);
  if(!data)return NULL;
  size =fread(data, 1, size, f);
  if(size==EOF){size = 0; free(data);}
  if(file_size)*file_size = size;
  printf("Loaded file %s file_size %zu\n",path,*file_size);
  return data;
}else{
  printf("Failed to open file %s\n",path);
}
return NULL;
``` -/
def sb_load_file_data (fs : sb_file_system) (malloc_ok : Nat → Bool) (path : List Char) :
    load_result :=
  match fs path with
  | some f =>
    let size := f.bytes.length
    if malloc_ok size = false then ⟨none, 0, false⟩
    else
      let r := fread (List.replicate size 0) size f
      let size := r.1
      if size = SIZE_MAX then ⟨some r.2, 0, true⟩
      else ⟨some r.2, size, false⟩
  | none => ⟨none, 0, false⟩

/-- The function `se_load_bios_file`: the returned flag and the destination `data`
afterwards; `none` stands for undefined behaviour (a block freed twice, or a copy past the
end of `data`). The argument `name`, which is only printed, is left out.
```c
bool loaded_bios=false;
const char* base, *file, *ext;
sb_breakup_path(base_path, &base,&file, &ext);
static char bios_path[SB_FILE_PATH_SIZE];
se_join_path(bios_path,SB_FILE_PATH_SIZE,base,file_name,NULL);
size_t bios_bytes=0;
uint8_t *bios_data = sb_load_file_data(bios_path, &bios_bytes);
if(bios_data){
  if(bios_bytes==data_size){
    printf("Loaded %s from %s\n",name, bios_path);
    memcpy(data,bios_data,data_size);
    loaded_bios=true;
  }else{
    printf("%s file at %s is incorrectly sized. Expected %zu bytes, got %zu bytes",name,file_name,data_size,bios_bytes);
  }
}
free(bios_data);
return loaded_bios;
``` -/
def se_load_bios_file (fs : sb_file_system) (malloc_ok : Nat → Bool)
    (base_path file_name : List Char) (data : List Nat) (data_size : Nat) :
    Option (Bool × List Nat) :=
  let base := (sb_breakup_path_strings base_path).1
  match se_join_path (List.replicate SB_FILE_PATH_SIZE NUL) SB_FILE_PATH_SIZE base file_name
      none with
  | none => none
  | some bios_path =>
    let r := sb_load_file_data fs malloc_ok (c_str bios_path)
    match r.data with
    | some bios_data =>
      if r.freed = true then none
      else if r.file_size = data_size then
        if data.length < data_size then none
        else some (true, memcpy data bios_data data_size)
      else some (false, data)
    | none => some (false, data)

/-- The path of the file that `se_load_bios_file` is specified to look up: `file_name` in the
directory component of `base_path`, and `file_name` alone without a directory component. -/
def bios_path_spec (base_path file_name : List Char) : List Char :=
  join_spec_dir (breakup_spec base_path).1 ++ file_name

/-! ## Ring buffer: theorems -/

/-- The call when the normalization branch is taken. -/
theorem sb_ring_buffer_size_of_gt (d : List Int) (r w : Nat) (h : 8192 < r) :
    sb_ring_buffer_size ⟨d, r, w⟩
      = (u32_sub (u32_sub w 8192) (u32_sub r 8192) % 8192,
         ⟨d, u32_sub r 8192, u32_sub w 8192⟩) := by
  have h1 : r > SB_AUDIO_RING_BUFFER_SIZE := h
  simp only [sb_ring_buffer_size, sb_ring_buffer_normalize, if_pos h1]
  rfl

/-- The call when the normalization branch is not taken. -/
theorem sb_ring_buffer_size_of_le (d : List Int) (r w : Nat) (h : r ≤ 8192) :
    sb_ring_buffer_size ⟨d, r, w⟩ = (u32_sub w r % 8192, ⟨d, r, w⟩) := by
  have h1 : ¬ r > SB_AUDIO_RING_BUFFER_SIZE := Nat.not_lt.mpr h
  simp only [sb_ring_buffer_size, sb_ring_buffer_normalize, if_neg h1]
  rfl

/-- The returned value is below the capacity. -/
theorem sb_ring_buffer_size_lt (buff : sb_ring_buffer_t) :
    (sb_ring_buffer_size buff).1 < 8192 :=
  Nat.mod_lt _ (by decide)

/-- C1: for every ring-buffer state, `sb_ring_buffer_size` returns a value in
`[0, 8191]`, that is in `[0, capacity - 1]` with `capacity = SB_AUDIO_RING_BUFFER_SIZE = 8192`. -/
theorem sb_ring_buffer_size_range (buff : sb_ring_buffer_t) :
    SB_AUDIO_RING_BUFFER_SIZE = 8192 ∧
    0 ≤ (sb_ring_buffer_size buff).1 ∧ (sb_ring_buffer_size buff).1 ≤ 8191 ∧
    (sb_ring_buffer_size buff).1 ≤ SB_AUDIO_RING_BUFFER_SIZE - 1 := by
  have h := sb_ring_buffer_size_lt buff
  exact ⟨rfl, Nat.zero_le _, by omega, Nat.le_pred_of_lt h⟩

/-- C2: for every ring-buffer state with `uint32_t` pointers, the value returned by
`sb_ring_buffer_size` equals `((write_ptr - read_ptr) mod 2^32) mod 8192` computed from the
pointers as they were before the call, whether or not the normalization branch is taken. -/
theorem sb_ring_buffer_size_eq_spec (buff : sb_ring_buffer_t) (h : buff.wf) :
    ((sb_ring_buffer_size buff).1 : Int) = occupied_count_spec buff.read_ptr buff.write_ptr := by
  obtain ⟨d, r, w⟩ := buff
  obtain ⟨hr, hw⟩ := h
  simp only [U32_MOD] at hr hw
  rcases Nat.lt_or_ge 8192 r with h1 | h1
  · rw [sb_ring_buffer_size_of_gt d r w h1]
    simp only [occupied_count_spec, u32_sub, U32_MOD]
    omega
  · rw [sb_ring_buffer_size_of_le d r w h1]
    simp only [occupied_count_spec, u32_sub, U32_MOD]
    omega

/-- Witness for C2: a state in which the normalization branch is taken and
`write_ptr - 8192` wraps below zero. -/
theorem sb_ring_buffer_size_eq_spec_witness :
    (sb_ring_buffer_t.mk [] 9000 5).wf ∧
    ((sb_ring_buffer_size (sb_ring_buffer_t.mk [] 9000 5)).1 : Int)
      = occupied_count_spec 9000 5 :=
  ⟨by decide, sb_ring_buffer_size_eq_spec (sb_ring_buffer_t.mk [] 9000 5) (by decide)⟩

/-- Counterexample for C3: with `read_ptr = 20000` a second call subtracts the capacity once
more, so two calls do not leave the pointers as a single call leaves them. -/
theorem sb_ring_buffer_size_twice_counterexample :
    ¬ ((sb_ring_buffer_size (sb_ring_buffer_size (sb_ring_buffer_t.mk [] 20000 20005)).2).1
          = (sb_ring_buffer_size (sb_ring_buffer_t.mk [] 20000 20005)).1 ∧
       (sb_ring_buffer_size (sb_ring_buffer_size (sb_ring_buffer_t.mk [] 20000 20005)).2).2
          = (sb_ring_buffer_size (sb_ring_buffer_t.mk [] 20000 20005)).2) := by
  decide

/-- C3 (amended): for every ring-buffer state with `uint32_t` pointers, calling
`sb_ring_buffer_size` twice in succession returns the same value both times; the second call
leaves `read_ptr` and `write_ptr` exactly as the first call left them if and only if
`read_ptr <= 2 * 8192` held before the first call. -/
theorem sb_ring_buffer_size_twice (buff : sb_ring_buffer_t) (h : buff.wf) :
    (sb_ring_buffer_size (sb_ring_buffer_size buff).2).1 = (sb_ring_buffer_size buff).1 ∧
    ((sb_ring_buffer_size (sb_ring_buffer_size buff).2).2 = (sb_ring_buffer_size buff).2
      ↔ buff.read_ptr ≤ 2 * 8192) := by
  obtain ⟨d, r, w⟩ := buff
  obtain ⟨hr, hw⟩ := h
  simp only [U32_MOD] at hr hw
  rcases Nat.lt_or_ge 8192 r with h1 | h1
  · rw [sb_ring_buffer_size_of_gt d r w h1]
    rcases Nat.lt_or_ge 8192 (u32_sub r 8192) with h2 | h2
    · rw [sb_ring_buffer_size_of_gt d _ _ h2]
      simp only [u32_sub, U32_MOD, sb_ring_buffer_t.mk.injEq, true_and] at h2 ⊢
      refine ⟨by omega, fun h3 => ?_, fun h3 => ?_⟩
      · omega
      · omega
    · rw [sb_ring_buffer_size_of_le d _ _ h2]
      simp only [u32_sub, U32_MOD, true_iff] at h2 ⊢
      refine ⟨trivial, ?_⟩
      omega
  · rw [sb_ring_buffer_size_of_le d r w h1, sb_ring_buffer_size_of_le d r w h1]
    simp only [true_iff, true_and]
    omega

/-- Witness for C3 (amended): a state whose first call normalizes and whose second does not. -/
theorem sb_ring_buffer_size_twice_witness :
    (sb_ring_buffer_t.mk [] 9000 9005).wf ∧
    (sb_ring_buffer_size (sb_ring_buffer_size (sb_ring_buffer_t.mk [] 9000 9005)).2).1
      = (sb_ring_buffer_size (sb_ring_buffer_t.mk [] 9000 9005)).1 ∧
    ((sb_ring_buffer_size (sb_ring_buffer_size (sb_ring_buffer_t.mk [] 9000 9005)).2).2
        = (sb_ring_buffer_size (sb_ring_buffer_t.mk [] 9000 9005)).2
      ↔ (sb_ring_buffer_t.mk [] 9000 9005).read_ptr ≤ 2 * 8192) :=
  ⟨by decide, sb_ring_buffer_size_twice (sb_ring_buffer_t.mk [] 9000 9005) (by decide)⟩

/-- C4: for every state with `read_ptr <= write_ptr` and `write_ptr - read_ptr < 8192`,
`sb_ring_buffer_size` returns exactly `write_ptr - read_ptr`, and after the call
`read_ptr <= write_ptr` still holds with the same unwrapped difference. -/
theorem sb_ring_buffer_size_exact (buff : sb_ring_buffer_t) (h : buff.wf)
    (hle : buff.read_ptr ≤ buff.write_ptr)
    (hlt : buff.write_ptr - buff.read_ptr < 8192) :
    (sb_ring_buffer_size buff).1 = buff.write_ptr - buff.read_ptr ∧
    (sb_ring_buffer_size buff).2.read_ptr ≤ (sb_ring_buffer_size buff).2.write_ptr ∧
    (sb_ring_buffer_size buff).2.write_ptr - (sb_ring_buffer_size buff).2.read_ptr
      = buff.write_ptr - buff.read_ptr := by
  obtain ⟨d, r, w⟩ := buff
  obtain ⟨hr, hw⟩ := h
  simp only [U32_MOD] at hr hw
  simp only at hle hlt
  rcases Nat.lt_or_ge 8192 r with h1 | h1
  · rw [sb_ring_buffer_size_of_gt d r w h1]
    simp only [u32_sub, U32_MOD]
    refine ⟨?_, ?_, ?_⟩ <;> omega
  · rw [sb_ring_buffer_size_of_le d r w h1]
    simp only [u32_sub, U32_MOD]
    refine ⟨?_, ?_, ?_⟩ <;> first | omega | trivial

/-- Witness for C4: a state with five unread samples whose pointers get normalized. -/
theorem sb_ring_buffer_size_exact_witness :
    (sb_ring_buffer_size (sb_ring_buffer_t.mk [] 9000 9005)).1 = 9005 - 9000 ∧
    (sb_ring_buffer_size (sb_ring_buffer_t.mk [] 9000 9005)).2.read_ptr
      ≤ (sb_ring_buffer_size (sb_ring_buffer_t.mk [] 9000 9005)).2.write_ptr ∧
    (sb_ring_buffer_size (sb_ring_buffer_t.mk [] 9000 9005)).2.write_ptr
        - (sb_ring_buffer_size (sb_ring_buffer_t.mk [] 9000 9005)).2.read_ptr
      = 9005 - 9000 :=
  sb_ring_buffer_size_exact (sb_ring_buffer_t.mk [] 9000 9005) (by decide) (by decide)
    (by decide)

/-- C5: `sb_ring_buffer_size` subtracts the capacity from both pointers exactly when
`read_ptr` exceeds the capacity: if `read_ptr > 8192` before the call, both pointers are the
old value minus 8192 modulo `2^32` afterwards; if `read_ptr <= 8192` both are unchanged; the
data array is unchanged in both cases. -/
theorem sb_ring_buffer_size_frame (buff : sb_ring_buffer_t) (h : buff.wf) :
    (buff.read_ptr > 8192 →
      ((sb_ring_buffer_size buff).2.read_ptr : Int)
          = ((buff.read_ptr : Int) - 8192) % 4294967296 ∧
      ((sb_ring_buffer_size buff).2.write_ptr : Int)
          = ((buff.write_ptr : Int) - 8192) % 4294967296) ∧
    (buff.read_ptr ≤ 8192 →
      (sb_ring_buffer_size buff).2.read_ptr = buff.read_ptr ∧
      (sb_ring_buffer_size buff).2.write_ptr = buff.write_ptr) ∧
    (sb_ring_buffer_size buff).2.data = buff.data := by
  obtain ⟨d, r, w⟩ := buff
  obtain ⟨hr, hw⟩ := h
  simp only [U32_MOD] at hr hw
  rcases Nat.lt_or_ge 8192 r with h1 | h1
  · rw [sb_ring_buffer_size_of_gt d r w h1]
    simp only [u32_sub, U32_MOD]
    refine ⟨fun _ => ⟨?_, ?_⟩, fun h2 => absurd h1 (Nat.not_lt.mpr h2), trivial⟩
    · omega
    · omega
  · rw [sb_ring_buffer_size_of_le d r w h1]
    exact ⟨fun h2 => absurd h2 (Nat.not_lt.mpr h1), fun _ => ⟨rfl, rfl⟩, rfl⟩

/-- Witness for C5: a state in which the branch is taken and `write_ptr - 8192` wraps. -/
theorem sb_ring_buffer_size_frame_witness :
    (sb_ring_buffer_t.mk [1, -2] 9000 5).wf ∧
    (((sb_ring_buffer_t.mk [1, -2] 9000 5).read_ptr > 8192 →
      ((sb_ring_buffer_size (sb_ring_buffer_t.mk [1, -2] 9000 5)).2.read_ptr : Int)
          = (((sb_ring_buffer_t.mk [1, -2] 9000 5).read_ptr : Int) - 8192) % 4294967296 ∧
      ((sb_ring_buffer_size (sb_ring_buffer_t.mk [1, -2] 9000 5)).2.write_ptr : Int)
          = (((sb_ring_buffer_t.mk [1, -2] 9000 5).write_ptr : Int) - 8192) % 4294967296) ∧
    ((sb_ring_buffer_t.mk [1, -2] 9000 5).read_ptr ≤ 8192 →
      (sb_ring_buffer_size (sb_ring_buffer_t.mk [1, -2] 9000 5)).2.read_ptr
          = (sb_ring_buffer_t.mk [1, -2] 9000 5).read_ptr ∧
      (sb_ring_buffer_size (sb_ring_buffer_t.mk [1, -2] 9000 5)).2.write_ptr
          = (sb_ring_buffer_t.mk [1, -2] 9000 5).write_ptr) ∧
    (sb_ring_buffer_size (sb_ring_buffer_t.mk [1, -2] 9000 5)).2.data
      = (sb_ring_buffer_t.mk [1, -2] 9000 5).data) :=
  ⟨by decide, sb_ring_buffer_size_frame (sb_ring_buffer_t.mk [1, -2] 9000 5) (by decide)⟩

/-- C6: `read_ptr <= 8192` after a call is an invariant of the consumer protocol: from a
state with `read_ptr <= 2 * 8192`, the call leaves `read_ptr <= 8192`, and in every state
reached by repeating "call `sb_ring_buffer_size`, then advance `read_ptr` by at most the
returned count" the bound `read_ptr <= 2 * 8192` holds again and the next call leaves
`read_ptr <= 8192`. -/
theorem sb_ring_buffer_size_read_ptr_bounded (s t : sb_ring_buffer_t)
    (h : s.read_ptr ≤ 2 * 8192) (hst : Relation.ReflTransGen ConsumerStep s t) :
    (sb_ring_buffer_size s).2.read_ptr ≤ 8192 ∧
    t.read_ptr ≤ 2 * 8192 ∧ (sb_ring_buffer_size t).2.read_ptr ≤ 8192 := by
  have key : ∀ b : sb_ring_buffer_t, b.read_ptr ≤ 2 * 8192 →
      (sb_ring_buffer_size b).2.read_ptr ≤ 8192 := by
    intro b hb
    obtain ⟨d, r, w⟩ := b
    simp only at hb
    rcases Nat.lt_or_ge 8192 r with h1 | h1
    · rw [sb_ring_buffer_size_of_gt d r w h1]
      simp only [u32_sub, U32_MOD]
      omega
    · rw [sb_ring_buffer_size_of_le d r w h1]
      exact h1
  have inv : t.read_ptr ≤ 2 * 8192 := by
    induction hst with
    | refl => exact h
    | @tail b c _ hstep ih =>
      obtain ⟨k, hk, rfl⟩ := hstep
      have h1 := key b ih
      have h2 := sb_ring_buffer_size_lt b
      simp only [u32_add, U32_MOD]
      omega
  exact ⟨key s h, inv, key t inv⟩

/-- Witness for C6: one consumer step from a state whose `read_ptr` is `2 * 8192`. -/
theorem sb_ring_buffer_size_read_ptr_bounded_witness :
    (sb_ring_buffer_size (sb_ring_buffer_t.mk [] 16384 16400)).2.read_ptr ≤ 8192 ∧
    (sb_ring_buffer_t.mk [] 8202 8208).read_ptr ≤ 2 * 8192 ∧
    (sb_ring_buffer_size (sb_ring_buffer_t.mk [] 8202 8208)).2.read_ptr ≤ 8192 :=
  sb_ring_buffer_size_read_ptr_bounded (sb_ring_buffer_t.mk [] 16384 16400)
    (sb_ring_buffer_t.mk [] 8202 8208) (by decide)
    (Relation.ReflTransGen.single ⟨10, by decide, by decide⟩)

/-! ## C strings: lemmas -/

/-- Reading a string stops at the first NUL. -/
theorem c_str_append_NUL (s rest : List Char) (h : IsCStr s) :
    c_str (s ++ NUL :: rest) = s := by
  induction s with
  | nil => simp [c_str]
  | cons c cs ih =>
    have hc : c ≠ NUL := fun e => h (e ▸ List.mem_cons_self _ _)
    have hcs : IsCStr cs := fun m => h (List.mem_cons_of_mem _ m)
    have ih1 := ih hcs
    simp only [c_str] at ih1 ⊢
    simp [List.takeWhile_cons, hc, ih1]

/-- A store of NUL at or behind the terminator leaves the string unchanged. -/
theorem c_str_set_NUL (s rest : List Char) (i : Nat) (h : IsCStr s) (hi : s.length ≤ i) :
    c_str ((s ++ NUL :: rest).set i NUL) = s := by
  obtain ⟨j, rfl⟩ := Nat.exists_eq_add_of_le hi
  rw [List.set_append_right _ _ (Nat.le_add_right _ _), Nat.add_sub_cancel_left]
  cases j with
  | zero => exact c_str_append_NUL s rest h
  | succ j => exact c_str_append_NUL s (rest.set j NUL) h

/-- A prefix of a C string is a C string. -/
theorem IsCStr_take (s : List Char) (n : Nat) (h : IsCStr s) : IsCStr (s.take n) :=
  fun m => h (List.mem_of_mem_take m)

/-- The concatenation of C strings is a C string. -/
theorem IsCStr_append (s t : List Char) (hs : IsCStr s) (ht : IsCStr t) : IsCStr (s ++ t) := by
  intro m
  rcases List.mem_append.mp m with m | m
  · exact hs m
  · exact ht m

/-- After `snprintf` and the store of the final NUL the destination holds the formatted text
cut to `size - 1` characters. -/
theorem c_str_snprintf_set (dest : List Char) (size : Nat) (args : List (List Char))
    (h0 : size ≠ 0) (h : IsCStr args.flatten) :
    c_str ((snprintf dest size args).set (size - 1) NUL) = args.flatten.take (size - 1) := by
  simp only [snprintf, if_neg h0, List.append_assoc, List.singleton_append]
  apply c_str_set_NUL _ _ _ (IsCStr_take _ _ h)
  exact List.length_take_le _ _

/-- The destination after `se_join_path`, read as a string: the text `base_path`, separator,
`file_name`, extension separator, extension, cut to `dest_size - 1` characters. -/
theorem se_join_path_c_str (dest_path : List Char) (dest_size : Nat)
    (base_path file_name : List Char) (add_extension : Option (List Char))
    (hb : IsCStr base_path) (hf : IsCStr file_name)
    (he : ∀ e, add_extension = some e → IsCStr e)
    (h0 : 0 < dest_size) (hd : dest_size ≤ dest_path.length) :
    ∃ d, se_join_path dest_path dest_size base_path file_name add_extension = some d ∧
      c_str d = (join_spec_dir base_path ++ file_name ++ join_spec_ext add_extension).take
        (dest_size - 1) := by
  have hguard : ¬ (dest_size = 0 ∨ dest_path.length < dest_size) := by omega
  have hsep : IsCStr (if base_path.head? = none then [] else ['/']) := by
    split <;> simp [IsCStr, NUL]
  have hdir : base_path ++ (if base_path.head? = none then [] else ['/'])
      = join_spec_dir base_path := by
    cases base_path <;> simp [join_spec_dir]
  cases add_extension with
  | none =>
    refine ⟨_, by simp only [se_join_path, if_neg hguard]; rfl, ?_⟩
    rw [c_str_snprintf_set _ _ _ (by omega)]
    · simp only [List.flatten, List.append_nil, join_spec_ext, ← List.append_assoc, hdir]
    · simp only [List.flatten, List.append_nil]
      exact IsCStr_append _ _ hb (IsCStr_append _ _ hsep hf)
  | some e =>
    have hee := he e rfl
    have hes : IsCStr (if e.head? = some '.' then [] else ['.']) := by
      split <;> simp [IsCStr, NUL]
    have hext : (if e.head? = some '.' then [] else ['.']) ++ e = join_spec_ext (some e) := by
      cases e with
      | nil => simp [join_spec_ext]
      | cons c cs =>
        by_cases hc : c = '.' <;> simp [join_spec_ext, hc]
    refine ⟨_, by simp only [se_join_path, if_neg hguard]; rfl, ?_⟩
    rw [c_str_snprintf_set _ _ _ (by omega)]
    · simp only [List.flatten, List.append_nil]
      rw [hext, ← List.append_assoc, ← List.append_assoc, hdir]
    · simp only [List.flatten, List.append_nil]
      exact IsCStr_append _ _ hb (IsCStr_append _ _ hsep
        (IsCStr_append _ _ hf (IsCStr_append _ _ hes hee)))

/-! ## `se_join_path`: theorems -/

/-- C7: `se_join_path` inserts a directory separator only when the directory component is
non-empty: with C-string arguments and a destination large enough for the result, the output
is `base_path`, `"/"`, `file_name` and the extension part when `base_path` is non-empty, and
starts directly with `file_name` when `base_path` is empty, so that it has no leading `'/'`
unless `file_name` brings one. -/
theorem se_join_path_dir_separator (dest_path : List Char) (dest_size : Nat)
    (base_path file_name : List Char) (add_extension : Option (List Char))
    (hb : IsCStr base_path) (hf : IsCStr file_name)
    (he : ∀ e, add_extension = some e → IsCStr e)
    (hd : dest_size ≤ dest_path.length)
    (hfit : (join_spec_dir base_path ++ file_name ++ join_spec_ext add_extension).length
      < dest_size) :
    ∃ d, se_join_path dest_path dest_size base_path file_name add_extension = some d ∧
      (base_path ≠ [] →
        c_str d = base_path ++ ['/'] ++ file_name ++ join_spec_ext add_extension) ∧
      (base_path = [] → c_str d = file_name ++ join_spec_ext add_extension) ∧
      (base_path = [] → file_name.head? ≠ some '/' → (c_str d).head? ≠ some '/') := by
  obtain ⟨d, h1, h2⟩ := se_join_path_c_str dest_path dest_size base_path file_name
    add_extension hb hf he (by omega) hd
  have h3 : base_path = [] → c_str d = file_name ++ join_spec_ext add_extension := by
    intro heq
    rw [h2, List.take_of_length_le (by omega), join_spec_dir, if_pos heq, List.nil_append]
  refine ⟨d, h1, fun hne => ?_, h3, fun heq hfn => ?_⟩
  · rw [h2, List.take_of_length_le (by omega), join_spec_dir, if_neg hne]
  · rw [h3 heq]
    cases file_name with
    | cons c cs => simpa using hfn
    | nil =>
      rw [List.nil_append]
      cases add_extension with
      | none => simp [join_spec_ext]
      | some e =>
        cases e with
        | nil => simp [join_spec_ext]
        | cons c cs =>
          by_cases hc : c = '.'
          · subst hc
            simp [join_spec_ext]
          · simp [join_spec_ext, hc]

/-- Witness for C7: joining the directory `ab` with the file name `cd`. -/
theorem se_join_path_dir_separator_witness :
    ∃ d, se_join_path (List.replicate 8 'x') 8 ['a', 'b'] ['c', 'd'] none = some d ∧
      (['a', 'b'] ≠ [] →
        c_str d = ['a', 'b'] ++ ['/'] ++ ['c', 'd'] ++ join_spec_ext none) ∧
      (['a', 'b'] = [] → c_str d = ['c', 'd'] ++ join_spec_ext none) ∧
      (['a', 'b'] = [] → ['c', 'd'].head? ≠ some '/' → (c_str d).head? ≠ some '/') :=
  se_join_path_dir_separator (List.replicate 8 'x') 8 ['a', 'b'] ['c', 'd'] none
    (by decide) (by decide) (fun e h => by cases h) (by decide) (by decide)

/-- C8: `se_join_path` inserts an extension separator only when the supplied extension lacks
one: with C-string arguments and a destination large enough for the result, the output ends
with `file_name` followed by `add_extension` verbatim when `add_extension` starts with `'.'`,
with `file_name`, `"."`, `add_extension` otherwise (a trailing `"."` for an empty extension),
and with `file_name` alone when `add_extension` is NULL. -/
theorem se_join_path_ext_separator (dest_path : List Char) (dest_size : Nat)
    (base_path file_name : List Char) (add_extension : Option (List Char))
    (hb : IsCStr base_path) (hf : IsCStr file_name)
    (he : ∀ e, add_extension = some e → IsCStr e)
    (hd : dest_size ≤ dest_path.length)
    (hfit : (join_spec_dir base_path ++ file_name ++ join_spec_ext add_extension).length
      < dest_size) :
    ∃ d, se_join_path dest_path dest_size base_path file_name add_extension = some d ∧
      (∀ e, add_extension = some e → e.head? = some '.' →
        c_str d = join_spec_dir base_path ++ (file_name ++ e)) ∧
      (∀ e, add_extension = some e → e.head? ≠ some '.' →
        c_str d = join_spec_dir base_path ++ (file_name ++ ['.'] ++ e)) ∧
      (add_extension = some [] → c_str d = join_spec_dir base_path ++ (file_name ++ ['.'])) ∧
      (add_extension = none → c_str d = join_spec_dir base_path ++ file_name) := by
  obtain ⟨d, h1, h2⟩ := se_join_path_c_str dest_path dest_size base_path file_name
    add_extension hb hf he (by omega) hd
  have h3 : c_str d = join_spec_dir base_path ++ file_name ++ join_spec_ext add_extension := by
    rw [h2, List.take_of_length_le (by omega)]
  refine ⟨d, h1, ?_, ?_, ?_, ?_⟩
  · rintro e rfl hdot
    cases e with
    | nil => simp at hdot
    | cons c cs =>
      have hc : c = '.' := by simpa using hdot
      rw [h3, join_spec_ext, if_pos hc, List.append_assoc]
  · rintro e rfl hdot
    cases e with
    | nil => rw [h3, join_spec_ext, List.append_assoc, List.append_nil]
    | cons c cs =>
      have hc : ¬ c = '.' := by simpa using hdot
      rw [h3, join_spec_ext, if_neg hc]
      simp only [List.append_assoc, List.singleton_append]
  · rintro rfl
    rw [h3, join_spec_ext, List.append_assoc]
  · rintro rfl
    rw [h3, join_spec_ext, List.append_nil]

/-- Witness for C8: joining the file name `cd` with the extension `e`, which has no `'.'`. -/
theorem se_join_path_ext_separator_witness :
    ∃ d, se_join_path (List.replicate 9 'x') 9 ['a', 'b'] ['c', 'd'] (some ['e']) = some d ∧
      (∀ e, some ['e'] = some e → e.head? = some '.' →
        c_str d = join_spec_dir ['a', 'b'] ++ (['c', 'd'] ++ e)) ∧
      (∀ e, some ['e'] = some e → e.head? ≠ some '.' →
        c_str d = join_spec_dir ['a', 'b'] ++ (['c', 'd'] ++ ['.'] ++ e)) ∧
      (some ['e'] = some [] → c_str d = join_spec_dir ['a', 'b'] ++ (['c', 'd'] ++ ['.'])) ∧
      (some ['e'] = none → c_str d = join_spec_dir ['a', 'b'] ++ ['c', 'd']) :=
  se_join_path_ext_separator (List.replicate 9 'x') 9 ['a', 'b'] ['c', 'd'] (some ['e'])
    (by decide) (by decide) (fun e h => by cases h; decide) (by decide) (by decide)

/-! ## `sb_breakup_path`: lemmas -/

/-- A separator is neither `'.'` nor NUL. -/
theorem is_path_sep_ne (c : Char) (h : is_path_sep c = true) : c ≠ '.' ∧ c ≠ NUL := by
  simp only [is_path_sep, Bool.or_eq_true, beq_iff_eq] at h
  rcases h with h | h <;> subst h <;> decide

/-- An iteration at an inert character changes nothing. -/
theorem sb_breakup_path_loop_inert (sz : Nat) (st : breakup_t)
    (h1 : (st.tmp_path.getD sz NUL == '.' && !st.found_ext) = false)
    (h2 : is_path_sep (st.tmp_path.getD sz NUL) = false) :
    sb_breakup_path_loop (sz + 1) st = sb_breakup_path_loop sz st := by
  rw [sb_breakup_path_loop]
  simp only [h1, Bool.false_eq_true, if_false, h2]

/-- A run of inert characters is skipped. -/
theorem sb_breakup_path_loop_skip (st : breakup_t) (k m : Nat)
    (h : ∀ i, k ≤ i → i < k + m →
      (st.tmp_path.getD i NUL == '.' && !st.found_ext) = false ∧
      is_path_sep (st.tmp_path.getD i NUL) = false) :
    sb_breakup_path_loop (k + m) st = sb_breakup_path_loop k st := by
  induction m with
  | zero => rfl
  | succ m ih =>
    obtain ⟨h1, h2⟩ := h (k + m) (by omega) (by omega)
    rw [← Nat.add_assoc, sb_breakup_path_loop_inert _ _ h1 h2]
    exact ih (fun i hi1 hi2 => h i hi1 (by omega))

/-- The iteration at the first `'.'` met: the character is cleared and `ext` points behind
it. -/
theorem sb_breakup_path_loop_dot (sz : Nat) (st : breakup_t)
    (hc : st.tmp_path.getD sz NUL = '.') (hf : st.found_ext = false)
    (hlen : sz < st.tmp_path.length) :
    sb_breakup_path_loop (sz + 1) st
      = sb_breakup_path_loop sz
          { tmp_path := st.tmp_path.set sz NUL
            base_path := st.base_path
            file_name := path_ptr.tmp_path_at 0
            ext := path_ptr.tmp_path_at (sz + 1)
            found_ext := true } := by
  have hget : (st.tmp_path.set sz NUL).getD sz NUL = NUL := by
    rw [List.getD_eq_getElem?_getD, List.getElem?_set_self hlen]
    rfl
  have hsep : is_path_sep NUL = false := by decide
  rw [sb_breakup_path_loop]
  simp only [hc, hf, beq_self_eq_true, Bool.not_false, Bool.and_self, if_true, hget, hsep,
    Bool.false_eq_true, if_false]

/-- The iteration at a separator: the character is cleared, `file_name` points behind it,
`base_path` at the start of the buffer, and the loop ends. -/
theorem sb_breakup_path_loop_sep (sz : Nat) (st : breakup_t)
    (hc : is_path_sep (st.tmp_path.getD sz NUL) = true) :
    sb_breakup_path_loop (sz + 1) st
      = { tmp_path := st.tmp_path.set sz NUL
          base_path := path_ptr.tmp_path_at 0
          file_name := path_ptr.tmp_path_at (sz + 1)
          ext := st.ext
          found_ext := st.found_ext } := by
  have hne : (st.tmp_path.getD sz NUL == '.') = false := by
    simpa using (is_path_sep_ne _ hc).1
  rw [sb_breakup_path_loop]
  simp only [hne, Bool.false_and, Bool.false_eq_true, if_false, hc, if_true]

/-- The buffer `tmp_path` when the loop starts: the path followed by a NUL. -/
theorem sb_breakup_path_tmp_init (path : List Char) (h : path.length < 1024) :
    ∃ rest, (strncpy (List.replicate SB_FILE_PATH_SIZE NUL) path
        (SB_FILE_PATH_SIZE - 1)).set (SB_FILE_PATH_SIZE - 1) NUL = path ++ NUL :: rest := by
  have h1 : path.take 1023 = path := List.take_of_length_le (by omega)
  have h2 : List.drop 1023 (List.replicate 1024 NUL) = [NUL] := by
    rw [List.drop_replicate]
    rfl
  have h3 : ∀ n : Nat, List.replicate n NUL ++ [NUL] = NUL :: List.replicate n NUL := by
    intro n
    induction n with
    | zero => rfl
    | succ n ih => rw [List.replicate_succ, List.cons_append, ih]
  have h4 : SB_FILE_PATH_SIZE - 1 = 1023 := rfl
  have h5 : SB_FILE_PATH_SIZE = 1024 := rfl
  rw [h4, h5, strncpy, h1, h2, List.append_assoc, h3,
    List.set_append_right _ _ (by omega)]
  cases hn : 1023 - path.length with
  | zero => exact ⟨_, rfl⟩
  | succ j => exact ⟨_, rfl⟩

/-- The element of `P ++ R ++ T` at a position inside `R` is a member of `R`. -/
theorem getD_mid_mem (P R T : List Char) (i : Nat) (h1 : P.length ≤ i)
    (h2 : i < P.length + R.length) : (P ++ (R ++ T)).getD i NUL ∈ R := by
  rw [List.getD_append_right _ _ _ _ h1, List.getD_append _ _ _ _ (by omega),
    List.getD_eq_getElem _ _ (by omega)]
  exact List.getElem_mem _

/-- A segment of inert characters is skipped. -/
theorem sb_breakup_path_loop_skip_segment (st : breakup_t) (P R T : List Char)
    (htmp : st.tmp_path = P ++ (R ++ T))
    (hR : ∀ c ∈ R, (c == '.' && !st.found_ext) = false ∧ is_path_sep c = false) :
    sb_breakup_path_loop (P.length + R.length) st = sb_breakup_path_loop P.length st := by
  apply sb_breakup_path_loop_skip
  intro i h1 h2
  rw [htmp]
  exact hR _ (getD_mid_mem P R T i h1 h2)

/-- The scan of a file-name part without `'.'`: nothing changes. -/
theorem sb_breakup_path_loop_no_dot (X Y T : List Char) (bp fn ex : path_ptr)
    (hY : ∀ c ∈ Y, c ≠ '.' ∧ is_path_sep c = false) :
    sb_breakup_path_loop (X.length + Y.length) ⟨X ++ (Y ++ T), bp, fn, ex, false⟩
      = sb_breakup_path_loop X.length ⟨X ++ (Y ++ T), bp, fn, ex, false⟩ := by
  apply sb_breakup_path_loop_skip_segment _ X Y T rfl
  intro c hc
  obtain ⟨h1, h2⟩ := hY c hc
  exact ⟨by simp [h1], h2⟩

/-- The scan of a file-name part `Bn ++ "." ++ E` whose last `'.'` is the one shown: the
`'.'` is cleared, `ext` points to `E` and `file_name` to the start of the buffer. -/
theorem sb_breakup_path_loop_with_dot (X Bn E T : List Char) (bp fn ex : path_ptr)
    (hE : ∀ c ∈ E, c ≠ '.' ∧ is_path_sep c = false)
    (hB : ∀ c ∈ Bn, is_path_sep c = false) :
    sb_breakup_path_loop (X.length + (Bn.length + 1 + E.length))
        ⟨X ++ (Bn ++ '.' :: (E ++ T)), bp, fn, ex, false⟩
      = sb_breakup_path_loop X.length
        ⟨X ++ (Bn ++ NUL :: (E ++ T)), bp, path_ptr.tmp_path_at 0,
          path_ptr.tmp_path_at (X.length + Bn.length + 1), true⟩ := by
  have e1 : X.length + (Bn.length + 1 + E.length)
      = (X ++ (Bn ++ ['.'])).length + E.length := by
    simp only [List.length_append, List.length_singleton]
    omega
  have e2 : X ++ (Bn ++ '.' :: (E ++ T)) = (X ++ (Bn ++ ['.'])) ++ (E ++ T) := by
    simp only [List.append_assoc, List.singleton_append]
  have e3 : (X ++ (Bn ++ ['.'])).length = (X ++ Bn).length + 1 := by
    simp only [List.length_append, List.length_singleton]
    omega
  rw [e1, sb_breakup_path_loop_skip_segment _ (X ++ (Bn ++ ['.'])) E T e2
    (fun c hc => ⟨by simp [(hE c hc).1], (hE c hc).2⟩), e3]
  have e4 : X ++ (Bn ++ '.' :: (E ++ T)) = (X ++ Bn) ++ '.' :: (E ++ T) := by
    simp only [List.append_assoc]
  have hget : (X ++ (Bn ++ '.' :: (E ++ T))).getD (X ++ Bn).length NUL = '.' := by
    rw [e4, List.getD_append_right _ _ _ _ (Nat.le_refl _), Nat.sub_self]
    rfl
  have hlt : (X ++ Bn).length < (X ++ (Bn ++ '.' :: (E ++ T))).length := by
    simp only [List.length_append, List.length_cons]
    omega
  rw [sb_breakup_path_loop_dot _ _ hget rfl hlt]
  have hset : (X ++ (Bn ++ '.' :: (E ++ T))).set (X ++ Bn).length NUL
      = X ++ (Bn ++ NUL :: (E ++ T)) := by
    rw [e4, List.set_append_right _ _ (Nat.le_refl _), Nat.sub_self]
    simp only [List.set_cons_zero, List.append_assoc]
  have e5 : (X ++ Bn).length = X.length + Bn.length := List.length_append _ _
  simp only [hset]
  rw [e5]
  exact sb_breakup_path_loop_skip_segment _ X Bn (NUL :: (E ++ T)) rfl
    (fun c hc => ⟨by simp, hB c hc⟩)

/-- The iteration at the last separator of the path. -/
theorem sb_breakup_path_loop_at_sep (D Z : List Char) (c : Char) (bp fn ex : path_ptr)
    (fe : Bool) (hc : is_path_sep c = true) :
    sb_breakup_path_loop (D ++ [c]).length ⟨(D ++ [c]) ++ Z, bp, fn, ex, fe⟩
      = ⟨D ++ NUL :: Z, path_ptr.tmp_path_at 0, path_ptr.tmp_path_at (D.length + 1), ex, fe⟩ := by
  have e1 : (D ++ [c]).length = D.length + 1 := by simp
  have e2 : (D ++ [c]) ++ Z = D ++ c :: Z := by simp
  have hget : (D ++ c :: Z).getD D.length NUL = c := by
    rw [List.getD_append_right _ _ _ _ (Nat.le_refl _), Nat.sub_self]
    rfl
  rw [e1, e2, sb_breakup_path_loop_sep _ _ (by simpa only [hget] using hc)]
  simp only [List.set_append_right _ _ (Nat.le_refl _), Nat.sub_self, List.set_cons_zero]

/-- The string behind the cleared separator. -/
theorem c_str_drop_after (D Z rest : List Char) (hZ : IsCStr Z) :
    c_str ((D ++ NUL :: (Z ++ NUL :: rest)).drop (D.length + 1)) = Z := by
  have e : (D ++ NUL :: (Z ++ NUL :: rest)) = (D ++ [NUL]) ++ (Z ++ NUL :: rest) := by simp
  have l : D.length + 1 = (D ++ [NUL]).length := by simp
  rw [e, l, List.drop_left]
  exact c_str_append_NUL Z rest hZ

/-! ## `last_index`: lemmas -/

/-- No character satisfies `p`: there is no last position. -/
theorem last_index_none (p : Char → Bool) (l : List Char) (h : ∀ c ∈ l, p c = false) :
    last_index p l = none := by
  induction l with
  | nil => rfl
  | cons c cs ih =>
    rw [last_index, ih (fun x hx => h x (List.mem_cons_of_mem _ hx))]
    simp [h c (List.mem_cons_self _ _)]

/-- The last position is that of a character satisfying `p` behind which none does. -/
theorem last_index_append (p : Char → Bool) (A R : List Char) (c : Char) (hc : p c = true)
    (hR : ∀ x ∈ R, p x = false) : last_index p (A ++ c :: R) = some A.length := by
  induction A with
  | nil =>
    rw [List.nil_append, last_index, last_index_none p R hR]
    simp [hc]
  | cons a A ih =>
    rw [List.cons_append, last_index, ih]
    rfl

/-- Every list either has no character satisfying `p` or splits at the last one. -/
theorem last_index_cases (p : Char → Bool) (l : List Char) :
    (∀ c ∈ l, p c = false) ∨
    ∃ A c R, l = A ++ c :: R ∧ p c = true ∧ ∀ x ∈ R, p x = false := by
  induction l with
  | nil => exact Or.inl (fun c hc => by cases hc)
  | cons a l ih =>
    rcases ih with h | ⟨A, c, R, rfl, hc, hR⟩
    · by_cases ha : p a = true
      · exact Or.inr ⟨[], a, l, rfl, ha, h⟩
      · refine Or.inl (fun c hc => ?_)
        rcases List.mem_cons.mp hc with rfl | hc
        · simpa using ha
        · exact h c hc
    · exact Or.inr ⟨a :: A, c, R, rfl, hc, hR⟩

/-! ## `sb_breakup_path`: the four shapes of a path -/

/-- For a path shorter than the buffer the loop starts at the end of the path, on a buffer
holding the path followed by a NUL. -/
theorem sb_breakup_path_start (path : List Char) (hlen : path.length < 1024)
    (hc : IsCStr path) :
    ∃ rest, sb_breakup_path path
      = sb_breakup_path_loop path.length
          ⟨path ++ NUL :: rest, path_ptr.empty_literal, path_ptr.tmp_path_at 0,
            path_ptr.empty_literal, false⟩ := by
  obtain ⟨rest, h⟩ := sb_breakup_path_tmp_init path hlen
  refine ⟨rest, ?_⟩
  simp only [sb_breakup_path, h, strlen, c_str_append_NUL path rest hc]

/-- A path with neither separator nor `'.'` is a bare file name. -/
theorem sb_breakup_path_plain (path : List Char) (hlen : path.length < 1024)
    (hc : IsCStr path) (hY : ∀ c ∈ path, c ≠ '.' ∧ is_path_sep c = false) :
    sb_breakup_path_strings path = ([], path, []) := by
  obtain ⟨rest, h⟩ := sb_breakup_path_start path hlen hc
  have h1 := sb_breakup_path_loop_no_dot [] path (NUL :: rest) path_ptr.empty_literal
    (path_ptr.tmp_path_at 0) path_ptr.empty_literal hY
  simp only [List.length_nil, Nat.zero_add, List.nil_append] at h1
  rw [sb_breakup_path_strings, h, h1]
  simp only [sb_breakup_path_loop, breakup_t.str, List.drop_zero,
    c_str_append_NUL path rest hc]

/-- A path `Bn.E` without separator. -/
theorem sb_breakup_path_dot (Bn E : List Char) (hlen : (Bn ++ '.' :: E).length < 1024)
    (hc : IsCStr (Bn ++ '.' :: E))
    (hE : ∀ c ∈ E, c ≠ '.' ∧ is_path_sep c = false)
    (hB : ∀ c ∈ Bn, is_path_sep c = false) :
    sb_breakup_path_strings (Bn ++ '.' :: E) = ([], Bn, E) := by
  obtain ⟨rest, h⟩ := sb_breakup_path_start _ hlen hc
  have hBn : IsCStr Bn := fun m => hc (List.mem_append_left _ m)
  have hEc : IsCStr E := fun m => hc (List.mem_append_right _ (List.mem_cons_of_mem _ m))
  have h1 := sb_breakup_path_loop_with_dot [] Bn E (NUL :: rest) path_ptr.empty_literal
    (path_ptr.tmp_path_at 0) path_ptr.empty_literal hE hB
  have e1 : (Bn ++ '.' :: E).length = Bn.length + 1 + E.length := by
    simp only [List.length_append, List.length_cons]
    omega
  have e2 : (Bn ++ '.' :: E) ++ NUL :: rest = Bn ++ '.' :: (E ++ NUL :: rest) := by
    simp only [List.append_assoc, List.cons_append]
  simp only [List.length_nil, Nat.zero_add, List.nil_append] at h1
  rw [sb_breakup_path_strings, h, e1, e2, h1]
  simp only [sb_breakup_path_loop, breakup_t.str, List.drop_zero,
    c_str_append_NUL Bn _ hBn, c_str_drop_after Bn E rest hEc]

/-- A path `D/Y` whose file-name part has no `'.'`. -/
theorem sb_breakup_path_sep (D Y : List Char) (c : Char)
    (hlen : (D ++ c :: Y).length < 1024) (hc : IsCStr (D ++ c :: Y))
    (hs : is_path_sep c = true)
    (hY : ∀ x ∈ Y, x ≠ '.' ∧ is_path_sep x = false) :
    sb_breakup_path_strings (D ++ c :: Y) = (D, Y, []) := by
  obtain ⟨rest, h⟩ := sb_breakup_path_start _ hlen hc
  have hD : IsCStr D := fun m => hc (List.mem_append_left _ m)
  have hYc : IsCStr Y := fun m => hc (List.mem_append_right _ (List.mem_cons_of_mem _ m))
  have h1 := sb_breakup_path_loop_no_dot (D ++ [c]) Y (NUL :: rest) path_ptr.empty_literal
    (path_ptr.tmp_path_at 0) path_ptr.empty_literal hY
  have e1 : (D ++ c :: Y).length = (D ++ [c]).length + Y.length := by
    simp only [List.length_append, List.length_cons, List.length_nil]
    omega
  have e2 : (D ++ c :: Y) ++ NUL :: rest = (D ++ [c]) ++ (Y ++ NUL :: rest) := by
    simp only [List.append_assoc, List.cons_append, List.nil_append]
  rw [sb_breakup_path_strings, h, e1, e2, h1, sb_breakup_path_loop_at_sep _ _ _ _ _ _ _ hs]
  simp only [breakup_t.str, List.drop_zero, c_str_append_NUL D _ hD,
    c_str_drop_after D Y rest hYc]

/-- A path `D/Bn.E`. -/
theorem sb_breakup_path_sep_dot (D Bn E : List Char) (c : Char)
    (hlen : (D ++ c :: (Bn ++ '.' :: E)).length < 1024)
    (hc : IsCStr (D ++ c :: (Bn ++ '.' :: E)))
    (hs : is_path_sep c = true)
    (hE : ∀ x ∈ E, x ≠ '.' ∧ is_path_sep x = false)
    (hB : ∀ x ∈ Bn, is_path_sep x = false) :
    sb_breakup_path_strings (D ++ c :: (Bn ++ '.' :: E)) = (D, Bn, E) := by
  obtain ⟨rest, h⟩ := sb_breakup_path_start _ hlen hc
  have hD : IsCStr D := fun m => hc (List.mem_append_left _ m)
  have hBn : IsCStr Bn := fun m =>
    hc (List.mem_append_right _ (List.mem_cons_of_mem _ (List.mem_append_left _ m)))
  have hEc : IsCStr E := fun m =>
    hc (List.mem_append_right _ (List.mem_cons_of_mem _
      (List.mem_append_right _ (List.mem_cons_of_mem _ m))))
  have h1 := sb_breakup_path_loop_with_dot (D ++ [c]) Bn E (NUL :: rest)
    path_ptr.empty_literal (path_ptr.tmp_path_at 0) path_ptr.empty_literal hE hB
  have e1 : (D ++ c :: (Bn ++ '.' :: E)).length
      = (D ++ [c]).length + (Bn.length + 1 + E.length) := by
    simp only [List.length_append, List.length_cons, List.length_nil]
    omega
  have e2 : (D ++ c :: (Bn ++ '.' :: E)) ++ NUL :: rest
      = (D ++ [c]) ++ (Bn ++ '.' :: (E ++ NUL :: rest)) := by
    simp only [List.append_assoc, List.cons_append, List.nil_append]
  have e3 : (D ++ [c]).length + Bn.length + 1 = (D ++ NUL :: Bn).length + 1 := by
    simp only [List.length_append, List.length_cons, List.length_nil]
    omega
  have e4 : D ++ NUL :: (Bn ++ NUL :: (E ++ NUL :: rest))
      = (D ++ NUL :: Bn) ++ NUL :: (E ++ NUL :: rest) := by
    simp only [List.append_assoc, List.cons_append]
  rw [sb_breakup_path_strings, h, e1, e2, h1, sb_breakup_path_loop_at_sep _ _ _ _ _ _ _ hs]
  simp only [breakup_t.str, List.drop_zero, c_str_append_NUL D _ hD,
    c_str_drop_after D Bn _ hBn]
  rw [e3, e4, c_str_drop_after _ E rest hEc]

/-! ## `sb_breakup_path`: the specification on the four shapes -/

/-- The specification on a path without separator. -/
theorem breakup_spec_no_sep (path : List Char) (h : ∀ c ∈ path, is_path_sep c = false) :
    breakup_spec path
      = ([],
         match last_index (fun c => c == '.') path with
         | some j => path.take j
         | none => path,
         match last_index (fun c => c == '.') path with
         | some j => path.drop (j + 1)
         | none => []) := by
  simp only [breakup_spec, last_index_none is_path_sep path h]

/-- The specification on a path whose last separator is shown. -/
theorem breakup_spec_sep (D Y : List Char) (c : Char) (hs : is_path_sep c = true)
    (hY : ∀ x ∈ Y, is_path_sep x = false) :
    breakup_spec (D ++ c :: Y)
      = (D,
         match last_index (fun c => c == '.') Y with
         | some j => Y.take j
         | none => Y,
         match last_index (fun c => c == '.') Y with
         | some j => Y.drop (j + 1)
         | none => []) := by
  have e : (D ++ c :: Y).drop (D.length + 1) = Y := by
    have e1 : D ++ c :: Y = (D ++ [c]) ++ Y := by simp
    have e2 : D.length + 1 = (D ++ [c]).length := by simp
    rw [e1, e2, List.drop_left]
  simp only [breakup_spec, last_index_append is_path_sep D Y c hs hY, e, List.take_left]

/-- The two `match`es of the specification on a part without `'.'`. -/
theorem breakup_spec_tail_plain (Y : List Char) (h : ∀ c ∈ Y, c ≠ '.') :
    last_index (fun c => c == '.') Y = none :=
  last_index_none _ Y (fun c hc => by simpa using h c hc)

/-- The two `match`es of the specification on a part whose last `'.'` is shown. -/
theorem breakup_spec_tail_dot (Bn E : List Char) (h : ∀ c ∈ E, c ≠ '.') :
    last_index (fun c => c == '.') (Bn ++ '.' :: E) = some Bn.length :=
  last_index_append _ Bn E '.' (by simp) (fun c hc => by simpa using h c hc)

/-- The part of a list behind position `A.length`. -/
theorem drop_length_succ (A R : List Char) (c : Char) :
    (A ++ c :: R).drop (A.length + 1) = R := by
  have e1 : A ++ c :: R = (A ++ [c]) ++ R := by simp
  have e2 : A.length + 1 = (A ++ [c]).length := by simp
  rw [e1, e2, List.drop_left]

/-- On every path shorter than the buffer the code computes the specified decomposition. -/
theorem sb_breakup_path_strings_eq_spec (path : List Char) (hlen : path.length < 1024)
    (hc : IsCStr path) : sb_breakup_path_strings path = breakup_spec path := by
  rcases last_index_cases is_path_sep path with hns | ⟨D, c, Y, rfl, hs, hY⟩
  · rw [breakup_spec_no_sep path hns]
    rcases last_index_cases (fun c => c == '.') path with hnd | ⟨Bn, x, E, rfl, hx, hE⟩
    · have hnd1 : ∀ c ∈ path, c ≠ '.' := fun c m => by simpa using hnd c m
      rw [breakup_spec_tail_plain path hnd1]
      exact sb_breakup_path_plain path hlen hc (fun c m => ⟨hnd1 c m, hns c m⟩)
    · have hx1 : x = '.' := by simpa using hx
      subst hx1
      have hE1 : ∀ c ∈ E, c ≠ '.' := fun c m => by simpa using hE c m
      rw [breakup_spec_tail_dot Bn E hE1]
      simp only [List.take_left, drop_length_succ]
      exact sb_breakup_path_dot Bn E hlen hc
        (fun c m => ⟨hE1 c m, hns c (List.mem_append_right _ (List.mem_cons_of_mem _ m))⟩)
        (fun c m => hns c (List.mem_append_left _ m))
  · rw [breakup_spec_sep D Y c hs hY]
    rcases last_index_cases (fun c => c == '.') Y with hnd | ⟨Bn, x, E, rfl, hx, hE⟩
    · have hnd1 : ∀ c ∈ Y, c ≠ '.' := fun c m => by simpa using hnd c m
      rw [breakup_spec_tail_plain Y hnd1]
      exact sb_breakup_path_sep D Y c hlen hc hs (fun c m => ⟨hnd1 c m, hY c m⟩)
    · have hx1 : x = '.' := by simpa using hx
      subst hx1
      have hE1 : ∀ c ∈ E, c ≠ '.' := fun c m => by simpa using hE c m
      rw [breakup_spec_tail_dot Bn E hE1]
      simp only [List.take_left, drop_length_succ]
      exact sb_breakup_path_sep_dot D Bn E c hlen hc hs
        (fun x m => ⟨hE1 x m, hY x (List.mem_append_right _ (List.mem_cons_of_mem _ m))⟩)
        (fun x m => hY x (List.mem_append_left _ m))

/-- The position `last_index` reports is that of a character satisfying `p` behind which no
character satisfies `p`. -/
theorem last_index_eq_some (p : Char → Bool) (l : List Char) (i : Nat)
    (h : last_index p l = some i) :
    ∃ A c R, l = A ++ c :: R ∧ A.length = i ∧ p c = true ∧ ∀ x ∈ R, p x = false := by
  rcases last_index_cases p l with hn | ⟨A, c, R, rfl, hc, hR⟩
  · rw [last_index_none p l hn] at h
    cases h
  · rw [last_index_append p A R c hc hR] at h
    exact ⟨A, c, R, rfl, Option.some.inj h, hc, hR⟩

/-- When `last_index` reports no position, no character satisfies `p`. -/
theorem last_index_eq_none (p : Char → Bool) (l : List Char) (h : last_index p l = none) :
    ∀ c ∈ l, p c = false := by
  rcases last_index_cases p l with hn | ⟨A, c, R, rfl, hc, hR⟩
  · exact hn
  · rw [last_index_append p A R c hc hR] at h
    cases h

/-! ## `sb_breakup_path`: theorem -/

/-- C9: for every path shorter than 1024 characters, `sb_breakup_path` yields the directory,
base name and extension of the specification: with `s` the position of the last `'/'` or
backslash and `d` the position of the last `'.'` after `s`, the directory is the text before
`s`, the extension the text after `d` and the base name the text strictly between them; a
`'.'` that occurs only in the directory part is never taken as the extension separator. -/
theorem sb_breakup_path_decomposes (path : List Char) (hlen : path.length < 1024)
    (hc : IsCStr path) :
    sb_breakup_path_strings path = breakup_spec path ∧
    (∀ D c Y, path = D ++ c :: Y → is_path_sep c = true →
      (∀ x ∈ Y, x ≠ '.' ∧ is_path_sep x = false) →
      sb_breakup_path_strings path = (D, Y, [])) := by
  refine ⟨sb_breakup_path_strings_eq_spec path hlen hc, ?_⟩
  rintro D c Y rfl hs hY
  exact sb_breakup_path_sep D Y c hlen hc hs hY

/-- Witness for C9: the path `a.b/c.d.e`, with a `'.'` in the directory and two in the file
name. -/
theorem sb_breakup_path_decomposes_witness :
    sb_breakup_path_strings ['a', '.', 'b', '/', 'c', '.', 'd', '.', 'e']
      = breakup_spec ['a', '.', 'b', '/', 'c', '.', 'd', '.', 'e'] ∧
    (∀ D c Y, ['a', '.', 'b', '/', 'c', '.', 'd', '.', 'e'] = D ++ c :: Y →
      is_path_sep c = true →
      (∀ x ∈ Y, x ≠ '.' ∧ is_path_sep x = false) →
      sb_breakup_path_strings ['a', '.', 'b', '/', 'c', '.', 'd', '.', 'e'] = (D, Y, [])) :=
  sb_breakup_path_decomposes ['a', '.', 'b', '/', 'c', '.', 'd', '.', 'e'] (by decide)
    (by decide)

/-! ## File loader: theorems -/

/-- What `sb_load_file_data_into_buffer` does: it returns true exactly when the file opens
and its size equals `buffer_size`, whatever `fread` delivers; when it returns false the
buffer is unmodified. -/
theorem sb_load_file_data_into_buffer_true_iff (fs : sb_file_system) (path : List Char)
    (buffer : List Nat) (buffer_size : Nat) :
    ((sb_load_file_data_into_buffer fs path buffer buffer_size).1 = true ↔
      ∃ f, fs path = some f ∧ f.bytes.length = buffer_size) ∧
    ((sb_load_file_data_into_buffer fs path buffer buffer_size).1 = false →
      (sb_load_file_data_into_buffer fs path buffer buffer_size).2 = buffer) := by
  unfold sb_load_file_data_into_buffer
  cases hf : fs path with
  | none => simp
  | some f =>
    by_cases hs : f.bytes.length = buffer_size
    · simp [hs]
    · simp [hs]

/-- C10 (code defect): on a file of four bytes of which `fread` delivers only two, with
`buffer_size = 4`, `sb_load_file_data_into_buffer` returns true although the last two bytes
of the buffer were never read. -/
theorem sb_load_file_data_into_buffer_truncated_read :
    sb_load_file_data_into_buffer (fun _ => some ⟨[1, 2, 3, 4], 2⟩) ['r', 'o', 'm']
      [0, 0, 0, 0] 4 = (true, [1, 2, 0, 0]) := by
  decide

/-! ## Capacity, run modes and slots -/

/-- Counterexample for C12: 8192 samples at 48000 samples per second do not last between
80 ms and 90 ms. -/
theorem SB_AUDIO_RING_BUFFER_SIZE_latency_counterexample :
    ¬ (80 < latency_ms SB_AUDIO_RING_BUFFER_SIZE 48000 ∧
       latency_ms SB_AUDIO_RING_BUFFER_SIZE 48000 < 90) := by
  norm_num [latency_ms, SB_AUDIO_RING_BUFFER_SIZE]

/-- C12 (amended): `SB_AUDIO_RING_BUFFER_SIZE` is 8192, the power of two `2^13`; 8192 samples
at 48000 samples per second last between 170 ms and 171 ms, and the figure of about 85 ms
(between 80 ms and 90 ms) is that of 4096 sample frames at 48 kHz, the 8192 samples counted
as interleaved left/right pairs. -/
theorem SB_AUDIO_RING_BUFFER_SIZE_latency :
    SB_AUDIO_RING_BUFFER_SIZE = 8192 ∧ SB_AUDIO_RING_BUFFER_SIZE = 2 ^ 13 ∧
    170 < latency_ms SB_AUDIO_RING_BUFFER_SIZE 48000 ∧
    latency_ms SB_AUDIO_RING_BUFFER_SIZE 48000 < 171 ∧
    80 < latency_ms (SB_AUDIO_RING_BUFFER_SIZE / 2) 48000 ∧
    latency_ms (SB_AUDIO_RING_BUFFER_SIZE / 2) 48000 < 90 := by
  refine ⟨rfl, rfl, ?_, ?_, ?_, ?_⟩ <;>
    norm_num [latency_ms, SB_AUDIO_RING_BUFFER_SIZE]

/-- C13 (code defect): the constants give `SB_MODE_PAUSE = 0` and `SB_MODE_RESET = 1`, the
reverse of the encoding documented on the field `run_mode` (0: Reset, 1: Pause); Run, Step and
Rewind are 2, 3 and 4. -/
theorem SB_MODE_encoding :
    SB_MODE_PAUSE = 0 ∧ SB_MODE_RESET = 1 ∧ SB_MODE_RESET ≠ 0 ∧ SB_MODE_PAUSE ≠ 1 ∧
    SB_MODE_RUN = 2 ∧ SB_MODE_STEP = 3 ∧ SB_MODE_REWIND = 4 := by
  decide

/-- C14: for every ring-buffer state with `uint32_t` pointers, also when `write_ptr - 8192`
wraps modulo `2^32`, `read_ptr mod 8192` and `write_ptr mod 8192` are the same after
`sb_ring_buffer_size` as before it. -/
theorem sb_ring_buffer_size_slots (buff : sb_ring_buffer_t) (h : buff.wf) :
    (sb_ring_buffer_size buff).2.read_ptr % SB_AUDIO_RING_BUFFER_SIZE
      = buff.read_ptr % SB_AUDIO_RING_BUFFER_SIZE ∧
    (sb_ring_buffer_size buff).2.write_ptr % SB_AUDIO_RING_BUFFER_SIZE
      = buff.write_ptr % SB_AUDIO_RING_BUFFER_SIZE := by
  obtain ⟨d, r, w⟩ := buff
  obtain ⟨hr, hw⟩ := h
  simp only [U32_MOD] at hr hw
  have hsz : SB_AUDIO_RING_BUFFER_SIZE = 8192 := rfl
  rw [hsz]
  rcases Nat.lt_or_ge 8192 r with h1 | h1
  · rw [sb_ring_buffer_size_of_gt d r w h1]
    simp only [u32_sub, U32_MOD]
    refine ⟨?_, ?_⟩ <;> omega
  · rw [sb_ring_buffer_size_of_le d r w h1]
    exact ⟨rfl, rfl⟩

/-- Witness for C14: a state in which `write_ptr - 8192` wraps below zero. -/
theorem sb_ring_buffer_size_slots_witness :
    (sb_ring_buffer_size (sb_ring_buffer_t.mk [] 9000 5)).2.read_ptr
        % SB_AUDIO_RING_BUFFER_SIZE
      = (sb_ring_buffer_t.mk [] 9000 5).read_ptr % SB_AUDIO_RING_BUFFER_SIZE ∧
    (sb_ring_buffer_size (sb_ring_buffer_t.mk [] 9000 5)).2.write_ptr
        % SB_AUDIO_RING_BUFFER_SIZE
      = (sb_ring_buffer_t.mk [] 9000 5).write_ptr % SB_AUDIO_RING_BUFFER_SIZE :=
  sb_ring_buffer_size_slots (sb_ring_buffer_t.mk [] 9000 5) (by decide)

/-! ## The 16-bit half-register macros -/

/-- Masking with `0xff` keeps the low byte. -/
theorem and_0xff (a : Nat) : a &&& 0xff = a % 256 :=
  Nat.and_pow_two_sub_one_eq_mod a 8

/-- Masking a 16-bit value with `0xff00` keeps the high byte in place. -/
theorem and_0xff00 (a : Nat) (h : a < 65536) : a &&& 0xff00 = 2 ^ 8 * (a / 256) := by
  apply Nat.eq_of_testBit_eq
  intro i
  have e1 : (0xff00 : Nat) = 2 ^ 8 * (2 ^ 8 - 1) := by decide
  have e2 : a / 256 = a >>> 8 := (Nat.shiftRight_eq_div_pow a 8).symm
  rw [e1, e2, Nat.testBit_and, Nat.testBit_mul_pow_two, Nat.testBit_mul_pow_two,
    Nat.testBit_two_pow_sub_one, Nat.testBit_shiftRight]
  by_cases h8 : i ≥ 8
  · have e3 : 8 + (i - 8) = i := by omega
    rw [e3]
    by_cases h16 : i - 8 < 8
    · simp [h8, h16]
    · have hlt : a < 2 ^ i := by
        have : 2 ^ 16 ≤ 2 ^ i := Nat.pow_le_pow_right (by decide) (by omega)
        omega
      simp [Nat.testBit_lt_two_pow hlt]
  · simp [h8]

/-- The low byte of `(int)(VAL)` is `VAL mod 256`. -/
theorem int_bits_mod_256 (v : Int) : ((int_bits v % 256 : Nat) : Int) = v % 256 := by
  unfold int_bits
  omega

/-- The value assigned by `SB_U16_LO_SET`, in arithmetic form. -/
theorem SB_U16_LO_SET_eq (A : Nat) (VAL : Int) (h : A < 65536) :
    SB_U16_LO_SET A VAL = 256 * (A / 256) + int_bits VAL % 256 := by
  have hb : int_bits VAL % 256 < 2 ^ 8 := Nat.mod_lt _ (by decide)
  rw [SB_U16_LO_SET, and_0xff, and_0xff00 A h, ← Nat.mul_add_lt_is_or hb]

/-- The value assigned by `SB_U16_HI_SET`, in arithmetic form. -/
theorem SB_U16_HI_SET_eq (A : Nat) (VAL : Int) :
    SB_U16_HI_SET A VAL = 256 * (int_bits VAL % 256) + A % 256 := by
  have hb : A % 256 < 2 ^ 8 := Nat.mod_lt _ (by decide)
  have e : (0x00ff : Nat) = 0xff := rfl
  rw [SB_U16_HI_SET, e, and_0xff, and_0xff, Nat.shiftLeft_eq, Nat.or_comm, Nat.mul_comm,
    ← Nat.mul_add_lt_is_or hb]

/-- The macros `SB_U16_LO` and `SB_U16_HI`, in arithmetic form. -/
theorem SB_U16_LO_HI_eq (A : Nat) : SB_U16_LO A = A % 256 ∧ SB_U16_HI A = A / 256 % 256 := by
  refine ⟨and_0xff A, ?_⟩
  rw [SB_U16_HI, and_0xff, Nat.shiftRight_eq_div_pow]

/-- C18: for every `A` in `[0, 0xFFFF]` and every integer `VAL`: after `SB_U16_LO_SET(A, VAL)`
the low half is `VAL mod 256` and the high half is unchanged; after `SB_U16_HI_SET(A, VAL)`
the high half is `VAL mod 256` and the low half is unchanged; `A` equals
`SB_U16_HI(A) * 256 + SB_U16_LO(A)` and stays within `[0, 0xFFFF]`. -/
theorem SB_U16_get_set (A : Nat) (VAL : Int) (h : A ≤ 0xFFFF) :
    ((SB_U16_LO (SB_U16_LO_SET A VAL) : Nat) : Int) = VAL % 256 ∧
    SB_U16_HI (SB_U16_LO_SET A VAL) = SB_U16_HI A ∧
    ((SB_U16_HI (SB_U16_HI_SET A VAL) : Nat) : Int) = VAL % 256 ∧
    SB_U16_LO (SB_U16_HI_SET A VAL) = SB_U16_LO A ∧
    A = SB_U16_HI A * 256 + SB_U16_LO A ∧
    SB_U16_LO_SET A VAL = SB_U16_HI (SB_U16_LO_SET A VAL) * 256
      + SB_U16_LO (SB_U16_LO_SET A VAL) ∧
    SB_U16_HI_SET A VAL = SB_U16_HI (SB_U16_HI_SET A VAL) * 256
      + SB_U16_LO (SB_U16_HI_SET A VAL) ∧
    SB_U16_LO_SET A VAL ≤ 0xFFFF ∧ SB_U16_HI_SET A VAL ≤ 0xFFFF := by
  have hA : A < 65536 := by omega
  have hv := int_bits_mod_256 VAL
  have h1 := SB_U16_LO_SET_eq A VAL hA
  have h2 := SB_U16_HI_SET_eq A VAL
  have l0 := SB_U16_LO_HI_eq A
  have l1 := SB_U16_LO_HI_eq (SB_U16_LO_SET A VAL)
  have l2 := SB_U16_LO_HI_eq (SB_U16_HI_SET A VAL)
  rw [l0.1, l0.2, l1.1, l1.2, l2.1, l2.2, h1, h2]
  refine ⟨?_, ?_, ?_, ?_, ?_, ?_, ?_, ?_, ?_⟩ <;> omega

/-- Witness for C18: the register `0x1234` and the negative value `-2`. -/
theorem SB_U16_get_set_witness :
    ((SB_U16_LO (SB_U16_LO_SET 0x1234 (-2)) : Nat) : Int) = (-2) % 256 ∧
    SB_U16_HI (SB_U16_LO_SET 0x1234 (-2)) = SB_U16_HI 0x1234 ∧
    ((SB_U16_HI (SB_U16_HI_SET 0x1234 (-2)) : Nat) : Int) = (-2) % 256 ∧
    SB_U16_LO (SB_U16_HI_SET 0x1234 (-2)) = SB_U16_LO 0x1234 ∧
    0x1234 = SB_U16_HI 0x1234 * 256 + SB_U16_LO 0x1234 ∧
    SB_U16_LO_SET 0x1234 (-2) = SB_U16_HI (SB_U16_LO_SET 0x1234 (-2)) * 256
      + SB_U16_LO (SB_U16_LO_SET 0x1234 (-2)) ∧
    SB_U16_HI_SET 0x1234 (-2) = SB_U16_HI (SB_U16_HI_SET 0x1234 (-2)) * 256
      + SB_U16_LO (SB_U16_HI_SET 0x1234 (-2)) ∧
    SB_U16_LO_SET 0x1234 (-2) ≤ 0xFFFF ∧ SB_U16_HI_SET 0x1234 (-2) ≤ 0xFFFF :=
  SB_U16_get_set 0x1234 (-2) (by decide)

/-! ## `se_join_path`: truncation -/

/-- The buffer that `se_join_path` leaves: the result of one `snprintf` of C strings whose
concatenation is the joined path, with a NUL stored in the last element. -/
theorem se_join_path_form (dest_path : List Char) (dest_size : Nat)
    (base_path file_name : List Char) (add_extension : Option (List Char))
    (hb : IsCStr base_path) (hf : IsCStr file_name)
    (he : ∀ e, add_extension = some e → IsCStr e)
    (h0 : 0 < dest_size) (hd : dest_size ≤ dest_path.length) :
    ∃ args, se_join_path dest_path dest_size base_path file_name add_extension
        = some ((snprintf dest_path dest_size args).set (dest_size - 1) NUL) ∧
      args.flatten = join_spec_dir base_path ++ file_name ++ join_spec_ext add_extension ∧
      IsCStr args.flatten := by
  have hguard : ¬ (dest_size = 0 ∨ dest_path.length < dest_size) := by omega
  have hsep : IsCStr (if base_path.head? = none then [] else ['/']) := by
    split <;> simp [IsCStr, NUL]
  have hdir : base_path ++ (if base_path.head? = none then [] else ['/'])
      = join_spec_dir base_path := by
    cases base_path <;> simp [join_spec_dir]
  cases add_extension with
  | none =>
    refine ⟨_, by simp only [se_join_path, if_neg hguard]; rfl, ?_, ?_⟩
    · simp only [List.flatten, List.append_nil, join_spec_ext, ← List.append_assoc, hdir]
    · simp only [List.flatten, List.append_nil]
      exact IsCStr_append _ _ hb (IsCStr_append _ _ hsep hf)
  | some e =>
    have hee := he e rfl
    have hes : IsCStr (if e.head? = some '.' then [] else ['.']) := by
      split <;> simp [IsCStr, NUL]
    have hext : (if e.head? = some '.' then [] else ['.']) ++ e = join_spec_ext (some e) := by
      cases e with
      | nil => simp [join_spec_ext]
      | cons c cs =>
        by_cases hc : c = '.' <;> simp [join_spec_ext, hc]
    refine ⟨_, by simp only [se_join_path, if_neg hguard]; rfl, ?_, ?_⟩
    · simp only [List.flatten, List.append_nil]
      rw [hext, ← List.append_assoc, ← List.append_assoc, hdir]
    · simp only [List.flatten, List.append_nil]
      exact IsCStr_append _ _ hb (IsCStr_append _ _ hsep
        (IsCStr_append _ _ hf (IsCStr_append _ _ hes hee)))

/-- What `snprintf` followed by the store of the final NUL does to the buffer: its length and
its elements from `size` on are unchanged, and a NUL stands right behind the text. -/
theorem snprintf_set_frame (dest : List Char) (size : Nat) (args : List (List Char))
    (h0 : 0 < size) (hd : size ≤ dest.length) :
    ((snprintf dest size args).set (size - 1) NUL).length = dest.length ∧
    ((snprintf dest size args).set (size - 1) NUL).drop size = dest.drop size ∧
    ((snprintf dest size args).set (size - 1) NUL).getD (args.flatten.take (size - 1)).length
      'x' = NUL := by
  have hne : size ≠ 0 := by omega
  have hT : (args.flatten.take (size - 1)).length ≤ size - 1 := List.length_take_le _ _
  generalize hTdef : args.flatten.take (size - 1) = T at hT
  have hsn : snprintf dest size args = (T ++ [NUL]) ++ dest.drop (T ++ [NUL]).length := by
    simp only [snprintf, if_neg hne, hTdef]
  have hlen1 : (T ++ [NUL]).length = T.length + 1 := by simp
  refine ⟨?_, ?_, ?_⟩
  · rw [List.length_set, hsn, List.length_append, List.length_drop, hlen1]
    omega
  · rw [List.drop_set_of_lt _ _ (by omega), hsn, List.drop_append_eq_append_drop,
      List.drop_drop, List.drop_of_length_le (by omega), List.nil_append, hlen1]
    congr 1
    omega
  · rw [hsn, List.append_assoc, List.singleton_append,
      List.set_append_right _ _ (by omega), List.getD_append_right _ _ _ _ (Nat.le_refl _),
      Nat.sub_self]
    cases size - 1 - T.length <;> rfl

/-- C16: `se_join_path` never writes past the destination and truncates rather than
overflows: for every `dest_size >= 1` within the destination and all C-string arguments, the
buffer keeps its length and its elements from `dest_size` on, and the output is a
NUL-terminated string of length at most `dest_size - 1`, exactly the first
`min(L, dest_size - 1)` characters of the untruncated concatenation of length `L`. -/
theorem se_join_path_truncates (dest_path : List Char) (dest_size : Nat)
    (base_path file_name : List Char) (add_extension : Option (List Char))
    (hb : IsCStr base_path) (hf : IsCStr file_name)
    (he : ∀ e, add_extension = some e → IsCStr e)
    (h0 : 1 ≤ dest_size) (hd : dest_size ≤ dest_path.length) :
    ∃ d, se_join_path dest_path dest_size base_path file_name add_extension = some d ∧
      d.length = dest_path.length ∧
      d.drop dest_size = dest_path.drop dest_size ∧
      c_str d = (join_spec_dir base_path ++ file_name ++ join_spec_ext add_extension).take
        (min (join_spec_dir base_path ++ file_name ++ join_spec_ext add_extension).length
          (dest_size - 1)) ∧
      (c_str d).length
        = min (join_spec_dir base_path ++ file_name ++ join_spec_ext add_extension).length
          (dest_size - 1) ∧
      (c_str d).length ≤ dest_size - 1 ∧
      d.getD (c_str d).length 'x' = NUL := by
  obtain ⟨args, h1, h2, h3⟩ := se_join_path_form dest_path dest_size base_path file_name
    add_extension hb hf he h0 hd
  obtain ⟨f1, f2, f3⟩ := snprintf_set_frame dest_path dest_size args h0 hd
  have hc := c_str_snprintf_set dest_path dest_size args (by omega) h3
  rw [h2] at hc f3
  refine ⟨_, h1, f1, f2, ?_, ?_, ?_, ?_⟩
  · rw [hc, List.take_eq_take]
    omega
  · rw [hc, List.length_take, Nat.min_comm]
  · rw [hc]
    exact List.length_take_le _ _
  · rw [hc]
    exact f3

/-- Witness for C16: a destination of ten elements of which `se_join_path` may use five. -/
theorem se_join_path_truncates_witness :
    ∃ d, se_join_path (List.replicate 10 'x') 5 ['a', 'b'] ['c', 'd'] (some ['e']) = some d ∧
      d.length = (List.replicate 10 'x').length ∧
      d.drop 5 = (List.replicate 10 'x').drop 5 ∧
      c_str d = (join_spec_dir ['a', 'b'] ++ ['c', 'd'] ++ join_spec_ext (some ['e'])).take
        (min (join_spec_dir ['a', 'b'] ++ ['c', 'd'] ++ join_spec_ext (some ['e'])).length
          (5 - 1)) ∧
      (c_str d).length
        = min (join_spec_dir ['a', 'b'] ++ ['c', 'd'] ++ join_spec_ext (some ['e'])).length
          (5 - 1) ∧
      (c_str d).length ≤ 5 - 1 ∧
      d.getD (c_str d).length 'x' = NUL :=
  se_join_path_truncates (List.replicate 10 'x') 5 ['a', 'b'] ['c', 'd'] (some ['e'])
    (by decide) (by decide) (fun e h => by cases h; decide) (by decide) (by decide)

/-! ## Decompose, then recompose -/

/-- An extension without `'.'` is joined behind an extension separator. -/
theorem join_spec_ext_no_dot (E : List Char) (h : ∀ c ∈ E, c ≠ '.') :
    join_spec_ext (some E) = '.' :: E := by
  cases E with
  | nil => rfl
  | cons c cs => rw [join_spec_ext, if_neg (h c (List.mem_cons_self _ _))]

/-- C15: for every path shorter than 1024 characters that contains a `'.'` after its last
separator and whose last separator, if there is one, is a `'/'` that is not the first
character of the path, `sb_breakup_path` followed by `se_join_path` on the resulting
directory, base name and extension, with a destination of at least 1024 bytes, reproduces
the path. -/
theorem sb_breakup_path_se_join_path_round_trip (path dest_path : List Char) (dest_size : Nat)
    (hlen : path.length < 1024) (hc : IsCStr path)
    (hdot : ∃ j, last_index (fun c => c == '.')
      (match last_index is_path_sep path with
        | some i => path.drop (i + 1)
        | none => path) = some j)
    (hsep : ∀ i, last_index is_path_sep path = some i → path.getD i NUL = '/' ∧ i ≠ 0)
    (hsize : 1024 ≤ dest_size) (hd : dest_size ≤ dest_path.length) :
    ∃ d, se_join_path dest_path dest_size (sb_breakup_path_strings path).1
        (sb_breakup_path_strings path).2.1 (some (sb_breakup_path_strings path).2.2) = some d ∧
      c_str d = path := by
  obtain ⟨j, hj⟩ := hdot
  rcases last_index_cases is_path_sep path with hns | ⟨D, c, Y, rfl, hs, hY⟩
  · rw [last_index_none is_path_sep path hns] at hj
    obtain ⟨Bn, x, E, rfl, -, hx, hE⟩ := last_index_eq_some _ _ _ hj
    have hx1 : x = '.' := by simpa using hx
    subst hx1
    have hE1 : ∀ c ∈ E, c ≠ '.' := fun c m => by simpa using hE c m
    have hEc : IsCStr E := fun m => hc (List.mem_append_right _ (List.mem_cons_of_mem _ m))
    have hBc : IsCStr Bn := fun m => hc (List.mem_append_left _ m)
    rw [sb_breakup_path_dot Bn E hlen hc
      (fun c m => ⟨hE1 c m, hns c (List.mem_append_right _ (List.mem_cons_of_mem _ m))⟩)
      (fun c m => hns c (List.mem_append_left _ m))]
    obtain ⟨d, h1, h2⟩ := se_join_path_c_str dest_path dest_size [] Bn (some E)
      (by simp [IsCStr]) hBc (fun e h => by cases h; exact hEc) (by omega) hd
    refine ⟨d, h1, ?_⟩
    rw [h2, join_spec_ext_no_dot E hE1, join_spec_dir, if_pos rfl, List.nil_append]
    exact List.take_of_length_le (by omega)
  · have hidx := last_index_append is_path_sep D Y c hs hY
    rw [hidx] at hj
    simp only [drop_length_succ] at hj
    obtain ⟨hget, hne⟩ := hsep D.length hidx
    have hc1 : c = '/' := by
      rw [List.getD_append_right _ _ _ _ (Nat.le_refl _), Nat.sub_self] at hget
      exact hget
    subst hc1
    have hD : D ≠ [] := fun e => hne (by rw [e]; rfl)
    obtain ⟨Bn, x, E, rfl, -, hx, hE⟩ := last_index_eq_some _ _ _ hj
    have hx1 : x = '.' := by simpa using hx
    subst hx1
    have hE1 : ∀ c ∈ E, c ≠ '.' := fun c m => by simpa using hE c m
    have hDc : IsCStr D := fun m => hc (List.mem_append_left _ m)
    have hBc : IsCStr Bn := fun m =>
      hc (List.mem_append_right _ (List.mem_cons_of_mem _ (List.mem_append_left _ m)))
    have hEc : IsCStr E := fun m =>
      hc (List.mem_append_right _ (List.mem_cons_of_mem _
        (List.mem_append_right _ (List.mem_cons_of_mem _ m))))
    rw [sb_breakup_path_sep_dot D Bn E '/' hlen hc hs
      (fun x m => ⟨hE1 x m, hY x (List.mem_append_right _ (List.mem_cons_of_mem _ m))⟩)
      (fun x m => hY x (List.mem_append_left _ m))]
    obtain ⟨d, h1, h2⟩ := se_join_path_c_str dest_path dest_size D Bn (some E)
      hDc hBc (fun e h => by cases h; exact hEc) (by omega) hd
    refine ⟨d, h1, ?_⟩
    have e : join_spec_dir D ++ Bn ++ '.' :: E = D ++ '/' :: (Bn ++ '.' :: E) := by
      rw [join_spec_dir, if_neg hD]
      simp only [List.append_assoc, List.singleton_append, List.cons_append, List.nil_append]
    rw [h2, join_spec_ext_no_dot E hE1, e]
    exact List.take_of_length_le (by omega)

/-- Witness for C15: the path `ab/c.d.e`. -/
theorem sb_breakup_path_se_join_path_round_trip_witness :
    ∃ d, se_join_path (List.replicate 1024 NUL) 1024
        (sb_breakup_path_strings ['a', 'b', '/', 'c', '.', 'd', '.', 'e']).1
        (sb_breakup_path_strings ['a', 'b', '/', 'c', '.', 'd', '.', 'e']).2.1
        (some (sb_breakup_path_strings ['a', 'b', '/', 'c', '.', 'd', '.', 'e']).2.2)
          = some d ∧
      c_str d = ['a', 'b', '/', 'c', '.', 'd', '.', 'e'] :=
  sb_breakup_path_se_join_path_round_trip ['a', 'b', '/', 'c', '.', 'd', '.', 'e']
    (List.replicate 1024 NUL) 1024 (by decide) (by decide) ⟨3, by decide⟩
    (fun i h => by
      have hi : i = 2 := Option.some.inj (h.symm.trans (by decide))
      subst hi
      decide)
    (by decide) (by rw [List.length_replicate])

/-! ## File-extension test: theorems -/

/-- The loop returns true exactly when every remaining pair of characters agrees after
lower-casing. -/
theorem sb_path_has_file_ext_loop_iff (path ext : List Char) (path_len ext_len n i : Nat) :
    sb_path_has_file_ext_loop path ext path_len ext_len n i = true ↔
      ∀ k, k < n →
        tolower (path.getD (path_len - ext_len + (i + k)) NUL)
          = tolower (ext.getD (i + k) NUL) := by
  induction n generalizing i with
  | zero => simp [sb_path_has_file_ext_loop]
  | succ n ih =>
    rw [sb_path_has_file_ext_loop]
    by_cases hc : tolower (path.getD (path_len - ext_len + i) NUL) = tolower (ext.getD i NUL)
    · simp only [hc, bne_self_eq_false, Bool.false_eq_true, if_false, ih]
      constructor
      · intro h k hk
        cases k with
        | zero => exact hc
        | succ k =>
          have := h k (by omega)
          rwa [Nat.add_assoc, Nat.add_comm 1 k] at this
      · intro h k hk
        have := h (k + 1) (by omega)
        rwa [Nat.add_assoc, Nat.add_comm 1 k]
    · have hb : (tolower (path.getD (path_len - ext_len + i) NUL)
          != tolower (ext.getD i NUL)) = true := by simpa using hc
      simp only [hb, if_true, Bool.false_eq_true, false_iff]
      intro h
      exact hc (h 0 (by omega))

/-- Two lists agree after lower-casing when they agree at every position. -/
theorem map_tolower_eq_iff (l ext : List Char) (hlen : l.length = ext.length) :
    l.map tolower = ext.map tolower ↔
      ∀ k, k < ext.length → tolower (l.getD k NUL) = tolower (ext.getD k NUL) := by
  constructor
  · intro h k hk
    have h1 : (l.map tolower)[k]? = (ext.map tolower)[k]? := by rw [h]
    rw [List.getElem?_map, List.getElem?_map, List.getElem?_eq_getElem (by omega),
      List.getElem?_eq_getElem hk] at h1
    rw [List.getD_eq_getElem _ _ (by omega), List.getD_eq_getElem _ _ hk]
    simpa using h1
  · intro h
    apply List.ext_getElem
    · simp [hlen]
    · intro k h1 h2
      have hk : k < ext.length := by simpa using h2
      have := h k hk
      rw [List.getD_eq_getElem _ _ (by omega), List.getD_eq_getElem _ _ hk] at this
      simpa using this

/-- C17: `sb_path_has_file_ext` is a case-insensitive suffix test: it returns true if and only
if `path` is at least as long as `ext` and the last `length(ext)` characters of `path` equal
`ext` after ASCII lower-casing both; it returns true for every path when `ext` is empty and
false whenever `path` is shorter than `ext`. -/
theorem sb_path_has_file_ext_iff (path ext : List Char) :
    (sb_path_has_file_ext path ext = true ↔
      ext.length ≤ path.length ∧
      (path.drop (path.length - ext.length)).map tolower = ext.map tolower) ∧
    (ext = [] → sb_path_has_file_ext path ext = true) ∧
    (path.length < ext.length → sb_path_has_file_ext path ext = false) := by
  have main : sb_path_has_file_ext path ext = true ↔
      ext.length ≤ path.length ∧
      (path.drop (path.length - ext.length)).map tolower = ext.map tolower := by
    unfold sb_path_has_file_ext
    by_cases hlt : path.length < ext.length
    · simp only [hlt, if_true, Bool.false_eq_true, false_iff]
      intro h
      omega
    · simp only [hlt, if_false, Nat.sub_zero, sb_path_has_file_ext_loop_iff, Nat.zero_add]
      have hl : (path.drop (path.length - ext.length)).length = ext.length := by
        rw [List.length_drop]
        omega
      rw [map_tolower_eq_iff _ _ hl]
      constructor
      · intro h
        refine ⟨by omega, fun k hk => ?_⟩
        rw [List.getD_eq_getElem _ _ (by omega), List.getElem_drop,
          ← List.getD_eq_getElem _ NUL]
        exact h k hk
      · rintro ⟨-, h⟩ k hk
        have := h k hk
        rwa [List.getD_eq_getElem _ _ (by omega), List.getElem_drop,
          ← List.getD_eq_getElem _ NUL] at this
  refine ⟨main, ?_, ?_⟩
  · rintro rfl
    rw [main]
    simp
  · intro h
    cases hr : sb_path_has_file_ext path ext with
    | false => rfl
    | true =>
      have := (main.mp hr).1
      omega

/-- Witness for C17: the path `R.Gb` has the extension `.gB`. -/
theorem sb_path_has_file_ext_iff_witness :
    (sb_path_has_file_ext ['R', '.', 'G', 'b'] ['.', 'g', 'B'] = true ↔
      ['.', 'g', 'B'].length ≤ ['R', '.', 'G', 'b'].length ∧
      (['R', '.', 'G', 'b'].drop (['R', '.', 'G', 'b'].length - ['.', 'g', 'B'].length)).map
        tolower = ['.', 'g', 'B'].map tolower) ∧
    (['.', 'g', 'B'] = [] → sb_path_has_file_ext ['R', '.', 'G', 'b'] ['.', 'g', 'B'] = true) ∧
    (['R', '.', 'G', 'b'].length < ['.', 'g', 'B'].length →
      sb_path_has_file_ext ['R', '.', 'G', 'b'] ['.', 'g', 'B'] = false) :=
  sb_path_has_file_ext_iff ['R', '.', 'G', 'b'] ['.', 'g', 'B']

/-! ## BIOS loader: theorems -/

/-- Counterexample for C11: with a file name of 1024 characters the path is cut to 1023
characters; the file of that shorter name is loaded and true is returned, although no file
named `file_name` exists. -/
theorem se_load_bios_file_long_name_counterexample :
    se_load_bios_file
        (fun p => if p = List.replicate 1023 'f' then some ⟨[7], 1⟩ else none)
        (fun _ => true) [] (List.replicate 1024 'f') [0] 1 = some (true, [7]) ∧
    (fun p => if p = List.replicate 1023 'f' then some (sb_file.mk [7] 1) else none)
        (bios_path_spec [] (List.replicate 1024 'f')) = none := by
  set_option maxRecDepth 1000000 in decide

/-- The directory of the specification is a C string when the path is one. -/
theorem IsCStr_breakup_spec_dir (path : List Char) (hc : IsCStr path) :
    IsCStr (breakup_spec path).1 := by
  simp only [breakup_spec]
  cases last_index is_path_sep path with
  | none => simp [IsCStr]
  | some i => exact IsCStr_take path i hc

/-- For paths that fit the buffers, `se_load_bios_file` loads the file at the specified path
and compares the number of bytes read with `data_size`. -/
theorem se_load_bios_file_eq (fs : sb_file_system) (malloc_ok : Nat → Bool)
    (base_path file_name : List Char) (data : List Nat) (data_size : Nat)
    (hbl : base_path.length < 1024) (hbc : IsCStr base_path) (hfc : IsCStr file_name)
    (hfit : (bios_path_spec base_path file_name).length < 1024) :
    se_load_bios_file fs malloc_ok base_path file_name data data_size
      = match (sb_load_file_data fs malloc_ok (bios_path_spec base_path file_name)).data with
        | some bios_data =>
          if (sb_load_file_data fs malloc_ok (bios_path_spec base_path file_name)).freed = true
          then none
          else if (sb_load_file_data fs malloc_ok (bios_path_spec base_path file_name)).file_size
              = data_size then
            if data.length < data_size then none
            else some (true, memcpy data bios_data data_size)
          else some (false, data)
        | none => some (false, data) := by
  have hdir : (sb_breakup_path_strings base_path).1 = (breakup_spec base_path).1 := by
    rw [sb_breakup_path_strings_eq_spec base_path hbl hbc]
  have hsz : SB_FILE_PATH_SIZE - 1 = 1023 := rfl
  obtain ⟨d, h1, h2⟩ := se_join_path_c_str (List.replicate SB_FILE_PATH_SIZE NUL)
    SB_FILE_PATH_SIZE (breakup_spec base_path).1 file_name none
    (IsCStr_breakup_spec_dir base_path hbc) hfc
    (fun e h => by cases h) (by decide) (by rw [List.length_replicate])
  have h3 : c_str d = bios_path_spec base_path file_name := by
    rw [h2, join_spec_ext, List.append_nil, hsz]
    exact List.take_of_length_le (by unfold bios_path_spec at hfit; omega)
  unfold se_load_bios_file
  simp only [hdir, h1, h3]

/-- C11 (amended): when `base_path` and the joined path (the directory component of
`base_path`, `"/"`, `file_name`; `file_name` alone without a directory component) are shorter
than 1024 characters and `fread` delivers the whole file, `se_load_bios_file` returns true if
and only if the file at the joined path opens, its block can be allocated and it has exactly
`data_size` bytes, in which case the first `data_size` bytes of `data` equal the file
contents; whenever it returns false, `data` is unchanged. -/
theorem se_load_bios_file_flag (fs : sb_file_system) (malloc_ok : Nat → Bool)
    (base_path file_name : List Char) (data : List Nat) (data_size : Nat)
    (hbl : base_path.length < 1024) (hbc : IsCStr base_path) (hfc : IsCStr file_name)
    (hfit : (bios_path_spec base_path file_name).length < 1024)
    (hread : ∀ f, fs (bios_path_spec base_path file_name) = some f →
      f.bytes.length ≤ f.read_limit ∧ f.bytes.length < SIZE_MAX)
    (hdata : data_size ≤ data.length) :
    ∃ r, se_load_bios_file fs malloc_ok base_path file_name data data_size = some r ∧
      (r.1 = true ↔ ∃ f, fs (bios_path_spec base_path file_name) = some f ∧
        malloc_ok f.bytes.length = true ∧ f.bytes.length = data_size) ∧
      (r.1 = true → ∀ f, fs (bios_path_spec base_path file_name) = some f →
        r.2.take data_size = f.bytes) ∧
      (r.1 = false → r.2 = data) := by
  rw [se_load_bios_file_eq fs malloc_ok base_path file_name data data_size hbl hbc hfc hfit]
  unfold sb_load_file_data
  cases hf : fs (bios_path_spec base_path file_name) with
  | none => exact ⟨(false, data), rfl, by simp, by simp, fun _ => rfl⟩
  | some f =>
    obtain ⟨hfull, hmax⟩ := hread f hf
    by_cases hm : malloc_ok f.bytes.length = false
    · refine ⟨(false, data), by simp [hm], ?_, by simp, fun _ => rfl⟩
      simp [hm]
    · have hm1 : malloc_ok f.bytes.length = true := by simpa using hm
      have hgot : List.take (min f.bytes.length f.read_limit) f.bytes = f.bytes :=
        List.take_of_length_le (by omega)
      have hfr : fread (List.replicate f.bytes.length 0) f.bytes.length f
          = (f.bytes.length, f.bytes) := by
        simp only [fread, hgot, List.drop_replicate, Nat.sub_self, List.replicate_zero,
          List.append_nil]
      have hne : ¬ f.bytes.length = SIZE_MAX := by omega
      by_cases hs : f.bytes.length = data_size
      · subst hs
        have hlt : ¬ data.length < f.bytes.length := by omega
        refine ⟨(true, memcpy data f.bytes f.bytes.length), ?_, ?_, ?_, ?_⟩
        · simp [hm1, hfr, hne, hlt]
        · simp [hm1]
        · intro _ g hg
          cases hg
          simp [memcpy]
        · intro h
          cases h
      · refine ⟨(false, data), ?_, ?_, by simp, fun _ => rfl⟩
        · simp [hm1, hfr, hne, hs]
        · simp [hs]

/-- Witness for C11 (amended): the BIOS `b` beside the ROM `d/r.g`. -/
theorem se_load_bios_file_flag_witness :
    ∃ r, se_load_bios_file
        (fun p => if p = ['d', '/', 'b'] then some ⟨[7, 8], 2⟩ else none) (fun _ => true)
        ['d', '/', 'r', '.', 'g'] ['b'] [0, 0, 0] 2 = some r ∧
      (r.1 = true ↔ ∃ f,
        (fun p => if p = ['d', '/', 'b'] then some (sb_file.mk [7, 8] 2) else none)
          (bios_path_spec ['d', '/', 'r', '.', 'g'] ['b']) = some f ∧
        (fun _ => true) f.bytes.length = true ∧ f.bytes.length = 2) ∧
      (r.1 = true → ∀ f,
        (fun p => if p = ['d', '/', 'b'] then some (sb_file.mk [7, 8] 2) else none)
          (bios_path_spec ['d', '/', 'r', '.', 'g'] ['b']) = some f →
        r.2.take 2 = f.bytes) ∧
      (r.1 = false → r.2 = [0, 0, 0]) :=
  se_load_bios_file_flag
    (fun p => if p = ['d', '/', 'b'] then some ⟨[7, 8], 2⟩ else none) (fun _ => true)
    ['d', '/', 'r', '.', 'g'] ['b'] [0, 0, 0] 2 (by decide) (by decide) (by decide)
    (by decide)
    (fun f hf => by
      have h : bios_path_spec ['d', '/', 'r', '.', 'g'] ['b'] = ['d', '/', 'b'] := by decide
      rw [h] at hf
      cases hf
      decide)
    (by decide)

end SkyBoy
